import Mathlib

/-!
Verification development for the `worker-json-parser` repository
(`AsyncJson.ts`): a fixed-size pool of worker threads that offloads JSON
parse/stringify work, queues excess tasks, enforces per-task timeouts and
replaces failed workers.

The pool orchestrator runs as single-threaded event-driven logic (all state
mutations happen inside discrete event handlers that never overlap), so it is
embedded as a pure state machine: `PoolState` mirrors the fields of the
`AsyncJson` class, each event handler of the source becomes a pure function
`PoolState → PoolState`, and a `Step` relation describes which events the
environment (the worker threads, the timers, the caller) can deliver.

Workers are identified by the order of their creation (`nextWorkerId` plays
the role of the `new Worker(...)` allocation); tasks are identified by the
order of their submission (`nextTaskId` identifies the promise handed to the
caller).  Bookkeeping fields that are not data of the class but observable
behaviour of the program — the sequence of promise settlements (`settleLog`),
the `postMessage` calls (`sends`), the number of `new Worker` constructions
(`spawnCount`), the `worker.terminate()` calls (`terminated`), the armed
`setTimeout` timers (`pendingTimers`) and the set of workers whose `exit`
event has already been delivered (`exitedWorkers`) — are carried alongside as
instrumentation so that the specification's claims about settlements, sends
and respawns can be stated.
-/

namespace AsyncJson

/-- Task types accepted by the worker script (`AsyncJson.ts`, `TaskType`). -/
inductive TaskType where
  | parse
  | stringify
  | testCrash
  | testError
  | testHang
  | testUncaughtError
deriving DecidableEq, Repr

/-- A task sent to a worker (`AsyncJson.ts`, `WorkerTask`).  Payloads are
opaque to the orchestrator; they are modelled as strings. -/
structure WorkerTask where
  type : TaskType
  payload : String
deriving DecidableEq, Repr

/-- Status field of a worker response (`AsyncJson.ts`, `WorkerMessage`). -/
inductive MsgStatus where
  | ok
  | error
deriving DecidableEq, Repr

/-- A response message from a worker (`AsyncJson.ts`, `WorkerMessage`). -/
structure WorkerMessage where
  status : MsgStatus
  data : String
  error : String
deriving DecidableEq, Repr

/-- The distinct failure values with which the pool rejects a task promise,
one per `reject(...)` site of `AsyncJson.ts`. -/
inductive Failure where
  | computeError (msg : String)
  | workerFault
  | workerExit (code : Nat)
  | timedOut
  | poolClosing
deriving DecidableEq, Repr

/-- A settlement of a task promise: `resolve(data)` or `reject(failure)`. -/
inductive Outcome where
  | resolved (data : String)
  | rejected (f : Failure)
deriving DecidableEq, Repr

/-- An entry of the task queue (`AsyncJson.ts`, `TaskQueueItem`); the
resolve/reject pair is identified by the task id. -/
structure QueueItem where
  task : WorkerTask
  taskId : Nat
deriving DecidableEq, Repr

/-- The result of `stats()` (`AsyncJson.ts`, lines 259-265). -/
structure Stats where
  workers : Nat
  idle : Nat
  queue : Nat
deriving DecidableEq, Repr

/-- The state of one `AsyncJson` pool instance.  The first block of fields
mirrors the class fields of `AsyncJson.ts` (with `Worker` objects replaced by
their numeric ids and the `workerTaskMap` values replaced by the assigned
task's id); the second block is instrumentation of observable behaviour. -/
structure PoolState where
  numThreads : Nat
  hasTaskTimeout : Bool
  workers : List Nat
  idleWorkers : List Nat
  taskQueue : List QueueItem
  workerTaskMap : List (Nat × Nat)
  isClosing : Bool
  timedOutWorkers : List Nat
  erroredWorkers : List Nat
  nextWorkerId : Nat
  nextTaskId : Nat
  pendingTimers : List (Nat × Nat)
  settleLog : List (Nat × Outcome)
  sends : List (Nat × Nat)
  spawnCount : Nat
  terminated : List Nat
  exitedWorkers : List Nat
deriving DecidableEq, Repr

/-- `Map.get` on the insertion-ordered association list modelling the JS
`Map<Worker, handlers>`. -/
def lookupW : List (Nat × Nat) → Nat → Option Nat
  | [], _ => none
  | (k, v) :: rest, w => if k = w then some v else lookupW rest w

/-- `Map.delete`: removes the entry with the given key, if any. -/
def eraseKey (w : Nat) : List (Nat × Nat) → List (Nat × Nat)
  | [] => []
  | (k, v) :: rest => if k = w then rest else (k, v) :: eraseKey w rest

/-- `Map.set`: replaces the value at an existing key, else appends. -/
def setKey (w v : Nat) : List (Nat × Nat) → List (Nat × Nat)
  | [] => [(w, v)]
  | (k, u) :: rest => if k = w then (w, v) :: rest else (k, u) :: setKey w v rest

/-- `WeakSet.add` on an insertion-ordered list of worker ids. -/
def addW (w : Nat) (l : List Nat) : List Nat :=
  if w ∈ l then l else l ++ [w]

/-- `WeakSet.delete` / removing a worker id. -/
def removeW (w : Nat) (l : List Nat) : List Nat :=
  l.filter (fun x => x ≠ w)

/-- Settling a task promise: append to the settlement log. -/
def settle (tid : Nat) (o : Outcome) (s : PoolState) : PoolState :=
  { s with settleLog := s.settleLog ++ [(tid, o)] }

/-- `if (timeoutId) clearTimeout(timeoutId)`: cancel the deadline timer of
the worker's current assignment.  A worker has at most one armed timer (it is
armed together with the assignment and cancelled whenever the assignment is
cleared), so cancelling by worker id is exact. -/
def clearTimer (w : Nat) (s : PoolState) : PoolState :=
  { s with pendingTimers := s.pendingTimers.filter (fun p => p.1 ≠ w) }

/-- The body of one assignment performed by `dispatch` (`AsyncJson.ts`,
lines 218-235): pop the front task and the front idle worker, arm the
deadline timer when a task timeout is configured, record the assignment in
`workerTaskMap` and post the task to the worker. -/
def assign (s : PoolState) (it : QueueItem) (q : List QueueItem)
    (w : Nat) (ws : List Nat) : PoolState :=
  { s with
    taskQueue := q
    idleWorkers := ws
    pendingTimers :=
      if s.hasTaskTimeout then s.pendingTimers ++ [(w, it.taskId)]
      else s.pendingTimers
    workerTaskMap := setKey w it.taskId s.workerTaskMap
    sends := s.sends ++ [(w, it.taskId)] }

/-- `dispatch()` (`AsyncJson.ts`, lines 210-236): a no-op while closing or
when the queue or the idle list is empty; otherwise performs exactly one
assignment of the front task to the front idle worker. -/
def dispatch (s : PoolState) : PoolState :=
  if s.isClosing ∨ s.taskQueue = [] ∨ s.idleWorkers = [] then s
  else
    match s.taskQueue, s.idleWorkers with
    | it :: q, w :: ws => assign s it q w ws
    | _, _ => s

/-- The `worker.on("message", ...)` handler (`AsyncJson.ts`, lines 108-124):
if the worker has no assignment the message is ignored; otherwise cancel the
timer, settle the promise from the message payload, clear the assignment,
return the worker to the idle list and dispatch. -/
def onMessage (w : Nat) (msg : WorkerMessage) (s : PoolState) : PoolState :=
  match lookupW s.workerTaskMap w with
  | none => s
  | some tid =>
    let s1 := clearTimer w s
    let s2 := settle tid
      (match msg.status with
       | MsgStatus.ok => Outcome.resolved msg.data
       | MsgStatus.error => Outcome.rejected (Failure.computeError msg.error)) s1
    let s3 := { s2 with
      workerTaskMap := eraseKey w s2.workerTaskMap
      idleWorkers := s2.idleWorkers ++ [w] }
    dispatch s3

/-- `removeWorker` (`AsyncJson.ts`, lines 183-186). -/
def removeWorker (w : Nat) (s : PoolState) : PoolState :=
  { s with
    workers := s.workers.filter (fun x => x ≠ w)
    idleWorkers := s.idleWorkers.filter (fun x => x ≠ w) }

/-- `spawnWorker` (`AsyncJson.ts`, lines 164-170): a no-op while closing;
otherwise constructs a fresh worker, registers it as idle and dispatches. -/
def spawnWorker (s : PoolState) : PoolState :=
  if s.isClosing then s
  else
    let w := s.nextWorkerId
    dispatch { s with
      nextWorkerId := w + 1
      spawnCount := s.spawnCount + 1
      workers := s.workers ++ [w]
      idleWorkers := s.idleWorkers ++ [w] }

/-- `replaceWorker` (`AsyncJson.ts`, lines 172-175). -/
def replaceWorker (w : Nat) (s : PoolState) : PoolState :=
  spawnWorker (removeWorker w s)

/-- The `worker.on("error", ...)` handler (`AsyncJson.ts`, lines 126-136):
mark the worker as errored; if it has an assignment, cancel the timer, reject
the promise with the fault and clear the assignment; then replace the
worker. -/
def onError (w : Nat) (s : PoolState) : PoolState :=
  let s1 := { s with erroredWorkers := addW w s.erroredWorkers }
  let s2 :=
    match lookupW s1.workerTaskMap w with
    | some tid =>
      let sa := clearTimer w s1
      let sb := settle tid (Outcome.rejected Failure.workerFault) sa
      { sb with workerTaskMap := eraseKey w sb.workerTaskMap }
    | none => s1
  replaceWorker w s2

/-- The `worker.on("exit", ...)` handler (`AsyncJson.ts`, lines 138-159):
read and clear the timed-out/errored attribution flags; for an unattributed
abnormal exit outside closing, reject the assigned promise (if any) after
cancelling its timer; replace the worker on an unattributed abnormal exit,
otherwise just remove it from the registry.  The worker is recorded in
`exitedWorkers` (instrumentation: a worker's `exit` event fires once). -/
def onExit (w : Nat) (code : Nat) (s : PoolState) : PoolState :=
  let timedOut := w ∈ s.timedOutWorkers
  let errored := w ∈ s.erroredWorkers
  let s1 := { s with
    timedOutWorkers := removeW w s.timedOutWorkers
    erroredWorkers := removeW w s.erroredWorkers
    exitedWorkers := addW w s.exitedWorkers }
  let s2 :=
    if code ≠ 0 ∧ s1.isClosing = false ∧ ¬timedOut ∧ ¬errored then
      match lookupW s1.workerTaskMap w with
      | some tid =>
        let sa := clearTimer w s1
        let sb := settle tid (Outcome.rejected (Failure.workerExit code)) sa
        { sb with workerTaskMap := eraseKey w sb.workerTaskMap }
      | none => s1
    else s1
  if code ≠ 0 ∧ ¬timedOut ∧ ¬errored then replaceWorker w s2
  else removeWorker w s2

/-- The `setTimeout` callback armed by `dispatch` (`AsyncJson.ts`,
lines 223-231): if the worker no longer has an assignment, return without
touching anything; otherwise clear the assignment, reject the promise with a
timeout failure, mark the worker timed-out, terminate it, replace it and
dispatch again.  `tid` is the task id captured by the callback's closure. -/
def fireTimeout (w tid : Nat) (s : PoolState) : PoolState :=
  match lookupW s.workerTaskMap w with
  | none => s
  | some _ =>
    let s1 := { s with workerTaskMap := eraseKey w s.workerTaskMap }
    let s2 := settle tid (Outcome.rejected Failure.timedOut) s1
    let s3 := { s2 with
      timedOutWorkers := addW w s2.timedOutWorkers
      terminated := addW w s2.terminated }
    dispatch (replaceWorker w s3)

/-- `runTask` (`AsyncJson.ts`, lines 188-197): while closing, the returned
promise is rejected immediately and the task never enters the queue;
otherwise the task is appended to the queue and `dispatch` runs.  The fresh
task id identifies the promise handed back to the caller. -/
def runTask (t : WorkerTask) (s : PoolState) : PoolState :=
  let tid := s.nextTaskId
  let s0 := { s with nextTaskId := tid + 1 }
  if s0.isClosing then settle tid (Outcome.rejected Failure.poolClosing) s0
  else dispatch { s0 with taskQueue := s0.taskQueue ++ [⟨t, tid⟩] }

/-- `parse` (`AsyncJson.ts`, lines 199-201). -/
def parse (jsonString : String) (s : PoolState) : PoolState :=
  runTask ⟨TaskType.parse, jsonString⟩ s

/-- `stringify` (`AsyncJson.ts`, lines 203-208). -/
def stringify (dataObject : String) (s : PoolState) : PoolState :=
  runTask ⟨TaskType.stringify, dataObject⟩ s

/-- `close()` (`AsyncJson.ts`, lines 238-255): set the closing flag, reject
every queued task in order, then reject every in-flight task in map order
(cancelling its timer), and call `terminate()` on every worker.  The `exit`
events of the terminated workers are delivered afterwards (see `onExit`). -/
def close (s : PoolState) : PoolState :=
  let q := s.taskQueue
  let m := s.workerTaskMap
  { s with
    isClosing := true
    taskQueue := []
    workerTaskMap := []
    pendingTimers := s.pendingTimers.filter (fun p => lookupW m p.1 = none)
    settleLog := s.settleLog
      ++ q.map (fun it => (it.taskId, Outcome.rejected Failure.poolClosing))
      ++ m.map (fun p => (p.2, Outcome.rejected Failure.poolClosing))
    terminated := s.workers.foldl (fun acc w => addW w acc) s.terminated }

/-- `stats()` (`AsyncJson.ts`, lines 259-265). -/
def stats (s : PoolState) : Stats :=
  ⟨s.workers.length, s.idleWorkers.length, s.taskQueue.length⟩

/-- The pool state before `initWorkers` runs in the constructor. -/
def emptyPool (n : Nat) (ht : Bool) : PoolState :=
  { numThreads := n
    hasTaskTimeout := ht
    workers := []
    idleWorkers := []
    taskQueue := []
    workerTaskMap := []
    isClosing := false
    timedOutWorkers := []
    erroredWorkers := []
    nextWorkerId := 0
    nextTaskId := 0
    pendingTimers := []
    settleLog := []
    sends := []
    spawnCount := 0
    terminated := []
    exitedWorkers := [] }

/-- `initWorkers` (`AsyncJson.ts`, lines 177-181). -/
def initWorkers : Nat → PoolState → PoolState
  | 0, s => s
  | n + 1, s => initWorkers n (spawnWorker s)

/-- The constructor (`AsyncJson.ts`, lines 96-103) for capacity `n`,
with `ht` recording whether a task timeout is configured. -/
def mkPool (n : Nat) (ht : Bool) : PoolState :=
  initWorkers n (emptyPool n ht)

/-- Modelled from the spec (section 4.1), for comparison with the source's
`dispatch`: "while the queue is non-empty and an idle unit exists, pop the
front task, pop any idle unit, create the Assignment, start the deadline
timer if a per-task timeout is configured, and send the task to the unit";
the fuel argument bounds the iteration by the queue length. -/
def dispatchLoopAux : Nat → PoolState → PoolState
  | 0, s => s
  | n + 1, s =>
    match s.taskQueue, s.idleWorkers with
    | it :: q, w :: ws => dispatchLoopAux n (assign s it q w ws)
    | _, _ => s

/-- Modelled from the spec (section 4.1): the dispatch loop, a no-op under
`closing`. -/
def dispatchLoop (s : PoolState) : PoolState :=
  if s.isClosing then s else dispatchLoopAux s.taskQueue.length s

/-- Folding the delivery of the `exit` events of a list of workers (exit
status 1, as produced by `worker.terminate()`). -/
def drainExits (ws : List Nat) (s : PoolState) : PoolState :=
  ws.foldl (fun a w => onExit w 1 a) s

/-- The events the environment can deliver to the orchestrator.  Each event
corresponds to one synchronous handler execution of `AsyncJson.ts`. -/
inductive Event where
  | submit (t : WorkerTask)
  | message (w : Nat) (msg : WorkerMessage)
  | fault (w : Nat)
  | exited (w : Nat) (code : Nat)
  | timerFired (w tid : Nat)
  | closeEv
deriving DecidableEq, Repr

/-- One observable step of the pool: an event handler runs to completion.
The side conditions describe what the environment can actually deliver:
a `message` can come from any worker ever created (including stale responses
of already-replaced workers); an `error` fault is raised by a worker while it
is owned by the registry, at most once; an `exit` event fires exactly once
per worker and — for this worker script, which only terminates via
`process.exit(1)`, an uncaught error, or `worker.terminate()` — always with a
nonzero status; a timer can only fire while it is armed (firing consumes
it). -/
inductive Step : PoolState → PoolState → Prop where
  | submit (t : WorkerTask) (s : PoolState) : Step s (runTask t s)
  | message (w : Nat) (msg : WorkerMessage) (s : PoolState)
      (hw : w < s.nextWorkerId) : Step s (onMessage w msg s)
  | fault (w : Nat) (s : PoolState)
      (hw : w ∈ s.workers) : Step s (onError w s)
  | exited (w code : Nat) (s : PoolState)
      (hw : w < s.nextWorkerId) (hx : w ∉ s.exitedWorkers) (hc : code ≠ 0) :
      Step s (onExit w code s)
  | timerFired (w tid : Nat) (s : PoolState)
      (ht : (w, tid) ∈ s.pendingTimers) :
      Step s (fireTimeout w tid
        { s with pendingTimers := s.pendingTimers.erase (w, tid) })
  | closeEv (s : PoolState) : Step s (close s)

/-- The states a pool constructed with capacity `n` (and timeout
configuration `ht`) can reach. -/
inductive Reachable (n : Nat) (ht : Bool) : PoolState → Prop where
  | init : Reachable n ht (mkPool n ht)
  | step {s s' : PoolState} : Reachable n ht s → Step s s' → Reachable n ht s'

/-! ### Association-list and worker-set helper lemmas -/

theorem lookupW_eq_none (m : List (Nat × Nat)) (w : Nat) :
    lookupW m w = none ↔ w ∉ m.map Prod.fst := by
  induction m with
  | nil => simp [lookupW]
  | cons p rest ih =>
    obtain ⟨k, v⟩ := p
    by_cases h : k = w
    · subst h; simp [lookupW]
    · simp [lookupW, h, Ne.symm h, ih]

theorem lookupW_mem {m : List (Nat × Nat)} {w t : Nat}
    (h : lookupW m w = some t) : (w, t) ∈ m := by
  induction m with
  | nil => simp [lookupW] at h
  | cons p rest ih =>
    obtain ⟨k, v⟩ := p
    by_cases hk : k = w
    · subst hk
      simp [lookupW] at h
      subst h
      exact List.mem_cons_self _ _
    · simp [lookupW, hk] at h
      exact List.mem_cons_of_mem _ (ih h)

theorem lookupW_isSome_of_mem {m : List (Nat × Nat)} {w t : Nat}
    (h : (w, t) ∈ m) : lookupW m w ≠ none := by
  rw [ne_eq, lookupW_eq_none]
  intro hk
  exact hk (List.mem_map.mpr ⟨(w, t), h, rfl⟩)

theorem lookupW_some_decomp {m : List (Nat × Nat)} {w t : Nat}
    (h : lookupW m w = some t) :
    ∃ l1 l2, m = l1 ++ (w, t) :: l2 ∧ lookupW l1 w = none ∧
      eraseKey w m = l1 ++ l2 := by
  induction m with
  | nil => simp [lookupW] at h
  | cons p rest ih =>
    obtain ⟨k, v⟩ := p
    by_cases hk : k = w
    · subst hk
      have hv : v = t := by simpa [lookupW] using h
      subst hv
      exact ⟨[], rest, by simp, by simp [lookupW], by simp [eraseKey]⟩
    · simp only [lookupW, if_neg hk] at h
      obtain ⟨l1, l2, hm, hl, he⟩ := ih h
      refine ⟨(k, v) :: l1, l2, by simp [hm], ?_, ?_⟩
      · simp [lookupW, hk, hl]
      · simp [eraseKey, hk, he]

theorem eraseKey_of_none {m : List (Nat × Nat)} {w : Nat}
    (h : lookupW m w = none) : eraseKey w m = m := by
  induction m with
  | nil => rfl
  | cons p rest ih =>
    obtain ⟨k, v⟩ := p
    by_cases hk : k = w
    · subst hk; simp [lookupW] at h
    · simp only [lookupW, if_neg hk] at h
      simp [eraseKey, hk, ih h]

theorem eraseKey_sublist (w : Nat) (m : List (Nat × Nat)) :
    (eraseKey w m).Sublist m := by
  induction m with
  | nil => simp [eraseKey]
  | cons p rest ih =>
    obtain ⟨k, v⟩ := p
    by_cases hk : k = w
    · simp [eraseKey, hk]
    · simpa [eraseKey, hk] using ih.cons₂ (k, v)

theorem mem_of_mem_eraseKey {w : Nat} {m : List (Nat × Nat)} {p : Nat × Nat}
    (h : p ∈ eraseKey w m) : p ∈ m :=
  (eraseKey_sublist w m).mem h

theorem keys_eraseKey_sublist (w : Nat) (m : List (Nat × Nat)) :
    ((eraseKey w m).map Prod.fst).Sublist (m.map Prod.fst) :=
  (eraseKey_sublist w m).map Prod.fst

theorem lookupW_eraseKey_self {m : List (Nat × Nat)} {w : Nat}
    (hnd : (m.map Prod.fst).Nodup) : lookupW (eraseKey w m) w = none := by
  cases hm : lookupW m w with
  | none => rw [eraseKey_of_none hm]; exact hm
  | some t =>
    obtain ⟨l1, l2, hdec, hl1, he⟩ := lookupW_some_decomp hm
    rw [he, lookupW_eq_none]
    subst hdec
    simp only [List.map_append, List.map_cons] at hnd
    rw [List.map_append, List.mem_append]
    rintro (h1 | h2)
    · exact (List.nodup_append.mp hnd).2.2 h1 (List.mem_cons_self _ _)
    · exact (List.nodup_cons.mp (List.nodup_append.mp hnd).2.1).1 h2

theorem lookupW_eraseKey_ne {m : List (Nat × Nat)} {w x : Nat}
    (hx : x ≠ w) : lookupW (eraseKey w m) x = lookupW m x := by
  induction m with
  | nil => rfl
  | cons p rest ih =>
    obtain ⟨k, v⟩ := p
    by_cases hk : k = w
    · subst hk
      simp [eraseKey, lookupW, Ne.symm hx]
    · simp only [eraseKey, if_neg hk]
      by_cases hkx : k = x
      · subst hkx; simp [lookupW]
      · simp [lookupW, hkx, ih]

theorem setKey_of_none {m : List (Nat × Nat)} {w : Nat}
    (h : lookupW m w = none) (v : Nat) : setKey w v m = m ++ [(w, v)] := by
  induction m with
  | nil => rfl
  | cons p rest ih =>
    obtain ⟨k, u⟩ := p
    by_cases hk : k = w
    · subst hk; simp [lookupW] at h
    · simp only [lookupW, if_neg hk] at h
      simp [setKey, hk, ih h]

theorem mem_addW {w x : Nat} {l : List Nat} :
    x ∈ addW w l ↔ x ∈ l ∨ x = w := by
  unfold addW
  by_cases h : w ∈ l
  · simp only [if_pos h]
    constructor
    · exact Or.inl
    · rintro (hx | rfl)
      · exact hx
      · exact h
  · simp [if_neg h]

theorem addW_nodup {w : Nat} {l : List Nat} (h : l.Nodup) :
    (addW w l).Nodup := by
  unfold addW
  by_cases hw : w ∈ l
  · simpa [hw]
  · simp only [if_neg hw]
    refine List.Nodup.append h (List.nodup_singleton w) ?_
    intro a ha hmem
    rw [List.mem_singleton] at hmem
    subst hmem
    exact hw ha

theorem mem_removeW {w x : Nat} {l : List Nat} :
    x ∈ removeW w l ↔ x ∈ l ∧ x ≠ w := by
  simp [removeW]

theorem removeW_nodup {w : Nat} {l : List Nat} (h : l.Nodup) :
    (removeW w l).Nodup := h.filter _

theorem filter_ne_of_not_mem {w : Nat} {l : List Nat} (h : w ∉ l) :
    l.filter (fun x => x ≠ w) = l := by
  apply List.filter_eq_self.mpr
  intro a ha
  simp only [ne_eq, decide_eq_true_eq]
  rintro rfl
  exact h ha

theorem length_filter_ne_of_mem {w : Nat} {l : List Nat}
    (hnd : l.Nodup) (hw : w ∈ l) :
    (l.filter (fun x => x ≠ w)).length + 1 = l.length := by
  have h1 := List.Nodup.erase_eq_filter hnd w
  have h2 := List.length_erase_of_mem hw
  have : (l.filter (fun x => x ≠ w)) = l.erase w := by simpa using h1.symm
  have h3 : 1 ≤ l.length := List.length_pos.mpr (by rintro rfl; cases hw)
  rw [this, h2]
  omega

theorem length_filter_ne_le (w : Nat) (l : List Nat) :
    (l.filter (fun x => x ≠ w)).length ≤ l.length :=
  List.length_filter_le _ l

/-! ### Settlement counting -/

/-- How many times a task's promise has been settled. -/
def countTid (tid : Nat) (l : List (Nat × Outcome)) : Nat :=
  l.countP (fun e => e.1 == tid)

/-- How many queue entries carry the given task. -/
def countQ (tid : Nat) (q : List QueueItem) : Nat :=
  q.countP (fun it => it.taskId == tid)

/-- How many assignments carry the given task. -/
def countA (tid : Nat) (m : List (Nat × Nat)) : Nat :=
  m.countP (fun p => p.2 == tid)

theorem countTid_append (tid : Nat) (l1 l2 : List (Nat × Outcome)) :
    countTid tid (l1 ++ l2) = countTid tid l1 + countTid tid l2 :=
  List.countP_append _ l1 l2

theorem countQ_append (tid : Nat) (l1 l2 : List QueueItem) :
    countQ tid (l1 ++ l2) = countQ tid l1 + countQ tid l2 :=
  List.countP_append _ l1 l2

theorem countA_append (tid : Nat) (l1 l2 : List (Nat × Nat)) :
    countA tid (l1 ++ l2) = countA tid l1 + countA tid l2 :=
  List.countP_append _ l1 l2

theorem countTid_zero_of_big {tid : Nat} {l : List (Nat × Outcome)}
    (h : ∀ e ∈ l, e.1 ≠ tid) : countTid tid l = 0 := by
  simp only [countTid, List.countP_eq_zero]
  intro e he
  simpa using h e he

theorem countQ_zero_of_big {tid : Nat} {q : List QueueItem}
    (h : ∀ it ∈ q, it.taskId ≠ tid) : countQ tid q = 0 := by
  simp only [countQ, List.countP_eq_zero]
  intro it hit
  simpa using h it hit

theorem countA_zero_of_big {tid : Nat} {m : List (Nat × Nat)}
    (h : ∀ p ∈ m, p.2 ≠ tid) : countA tid m = 0 := by
  simp only [countA, List.countP_eq_zero]
  intro p hp
  simpa using h p hp

/-! ### The pool invariant

`Core cap s` collects the structural facts that hold of every reachable state
of a pool of capacity `cap` between event-handler executions, except for the
dispatch-exhaustion fact (`queueOrIdle`), which is temporarily broken in the
middle of a handler (after an enqueue and before the concluding `dispatch`).
`Inv` adds that fact back; it is proved inductive over `Step` below, and the
claims about invariants (settle-once, partition, capacity bound) are
corollaries.

The partition fact (`part`) holds only while the pool is not closing:
`close()` clears every assignment synchronously but the assigned workers
leave the registry only when their termination's `exit` event arrives. -/

structure Core (cap : Nat) (s : PoolState) : Prop where
  numEq : s.numThreads = cap
  workersNodup : s.workers.Nodup
  idleNodup : s.idleWorkers.Nodup
  keysNodup : (s.workerTaskMap.map Prod.fst).Nodup
  idleSub : ∀ w, w ∈ s.idleWorkers → w ∈ s.workers
  mapSub : ∀ p, p ∈ s.workerTaskMap → p.1 ∈ s.workers
  part : s.isClosing = false → ∀ w, w ∈ s.workers →
    (w ∈ s.idleWorkers ↔ lookupW s.workerTaskMap w = none)
  capBound : s.workers.length ≤ cap
  closingQueue : s.isClosing = true → s.taskQueue = []
  closingMap : s.isClosing = true → s.workerTaskMap = []
  timersMap : ∀ p, p ∈ s.pendingTimers → lookupW s.workerTaskMap p.1 = some p.2
  timersNodup : (s.pendingTimers.map Prod.fst).Nodup
  widBound : ∀ w, w ∈ s.workers → w < s.nextWorkerId
  flagBound : ∀ w, w ∈ s.timedOutWorkers ∨ w ∈ s.erroredWorkers → w < s.nextWorkerId
  flagGone : ∀ w, w ∈ s.timedOutWorkers ∨ w ∈ s.erroredWorkers →
    w ∉ s.workers ∧ lookupW s.workerTaskMap w = none
  removedAcc : ∀ w, w < s.nextWorkerId → w ∉ s.workers →
    w ∈ s.exitedWorkers ∨ w ∈ s.timedOutWorkers ∨ w ∈ s.erroredWorkers
  tidQueue : ∀ it, it ∈ s.taskQueue → it.taskId < s.nextTaskId
  tidMap : ∀ p, p ∈ s.workerTaskMap → p.2 < s.nextTaskId
  tidLog : ∀ e, e ∈ s.settleLog → e.1 < s.nextTaskId
  account : ∀ tid, tid < s.nextTaskId →
    countTid tid s.settleLog + countQ tid s.taskQueue + countA tid s.workerTaskMap = 1

structure Inv (cap : Nat) (s : PoolState) extends Core cap s : Prop where
  queueOrIdle : s.taskQueue = [] ∨ s.idleWorkers = []

/-- While the pool is not closing, the registry is partitioned: idle plus
busy equals the number of workers. -/
theorem Core.partLength {cap : Nat} {s : PoolState} (inv : Core cap s)
    (hc : s.isClosing = false) :
    s.idleWorkers.length + s.workerTaskMap.length = s.workers.length := by
  classical
  have hIcard : s.idleWorkers.toFinset.card = s.idleWorkers.length :=
    List.toFinset_card_of_nodup inv.idleNodup
  have hKcard : (s.workerTaskMap.map Prod.fst).toFinset.card = s.workerTaskMap.length := by
    rw [List.toFinset_card_of_nodup inv.keysNodup, List.length_map]
  have hWcard : s.workers.toFinset.card = s.workers.length :=
    List.toFinset_card_of_nodup inv.workersNodup
  have hunion : s.idleWorkers.toFinset ∪ (s.workerTaskMap.map Prod.fst).toFinset
      = s.workers.toFinset := by
    ext x
    simp only [Finset.mem_union, List.mem_toFinset]
    constructor
    · rintro (hx | hx)
      · exact inv.idleSub x hx
      · obtain ⟨p, hp, hfst⟩ := List.mem_map.mp hx
        exact hfst ▸ inv.mapSub p hp
    · intro hx
      cases hl : lookupW s.workerTaskMap x with
      | none => exact Or.inl ((inv.part hc x hx).mpr hl)
      | some t => exact Or.inr (List.mem_map.mpr ⟨(x, t), lookupW_mem hl, rfl⟩)
  have hdisj : Disjoint s.idleWorkers.toFinset (s.workerTaskMap.map Prod.fst).toFinset := by
    rw [Finset.disjoint_left]
    intro x hx hk
    rw [List.mem_toFinset] at hx hk
    have hnone := (inv.part hc x (inv.idleSub x hx)).mp hx
    exact (lookupW_eq_none _ _).mp hnone hk
  have := Finset.card_union_of_disjoint hdisj
  rw [hunion, hIcard, hKcard, hWcard] at this
  omega

/-- The idle list never outnumbers the registry. -/
theorem Core.idleLe {cap : Nat} {s : PoolState} (inv : Core cap s) :
    s.idleWorkers.length ≤ s.workers.length := by
  classical
  have h1 : s.idleWorkers.toFinset.card = s.idleWorkers.length :=
    List.toFinset_card_of_nodup inv.idleNodup
  have h2 : s.workers.toFinset.card = s.workers.length :=
    List.toFinset_card_of_nodup inv.workersNodup
  have hsub : s.idleWorkers.toFinset ⊆ s.workers.toFinset := by
    intro x hx
    rw [List.mem_toFinset] at hx ⊢
    exact inv.idleSub x hx
  have := Finset.card_le_card hsub
  omega

/-! ### Characterizations of `dispatch` -/

theorem dispatch_of_stuck {s : PoolState}
    (h : s.isClosing = true ∨ s.taskQueue = [] ∨ s.idleWorkers = []) :
    dispatch s = s := by
  unfold dispatch
  rw [if_pos]
  simpa using h

theorem dispatch_cons {s : PoolState} {it : QueueItem} {q : List QueueItem}
    {w : Nat} {ws : List Nat} (hc : s.isClosing = false)
    (hq : s.taskQueue = it :: q) (hi : s.idleWorkers = w :: ws) :
    dispatch s = assign s it q w ws := by
  unfold dispatch
  rw [if_neg]
  · rw [hq, hi]
  · simp [hc, hq, hi]

theorem lookupW_append_of_none {m1 : List (Nat × Nat)} {x : Nat}
    (h : lookupW m1 x = none) (m2 : List (Nat × Nat)) :
    lookupW (m1 ++ m2) x = lookupW m2 x := by
  induction m1 with
  | nil => rfl
  | cons p rest ih =>
    obtain ⟨k, v⟩ := p
    by_cases hk : k = x
    · subst hk; simp [lookupW] at h
    · simp only [lookupW, if_neg hk] at h
      simpa [lookupW, hk] using ih h

theorem lookupW_append_of_some {m1 : List (Nat × Nat)} {x t : Nat}
    (h : lookupW m1 x = some t) (m2 : List (Nat × Nat)) :
    lookupW (m1 ++ m2) x = some t := by
  induction m1 with
  | nil => simp [lookupW] at h
  | cons p rest ih =>
    obtain ⟨k, v⟩ := p
    by_cases hk : k = x
    · subst hk
      simp only [lookupW, if_pos rfl] at h ⊢
      exact h
    · simp only [lookupW, if_neg hk] at h ⊢
      exact ih h

theorem lookupW_singleton (w t x : Nat) :
    lookupW [(w, t)] x = if w = x then some t else none := rfl

theorem nodup_append_singleton {l : List Nat} {x : Nat}
    (h : l.Nodup) (hx : x ∉ l) : (l ++ [x]).Nodup := by
  refine List.Nodup.append h (List.nodup_singleton x) ?_
  intro a ha hmem
  rw [List.mem_singleton] at hmem
  subst hmem
  exact hx ha

theorem countQ_cons (tid : Nat) (it : QueueItem) (q : List QueueItem) :
    countQ tid (it :: q) = countQ tid q + (if it.taskId = tid then 1 else 0) := by
  simp [countQ, List.countP_cons]

theorem countTid_app_single (tid t : Nat) (o : Outcome) (l : List (Nat × Outcome)) :
    countTid tid (l ++ [(t, o)]) = countTid tid l + (if t = tid then 1 else 0) := by
  simp [countTid, List.countP_append, List.countP_cons]

theorem countA_app_single (tid w t : Nat) (m : List (Nat × Nat)) :
    countA tid (m ++ [(w, t)]) = countA tid m + (if t = tid then 1 else 0) := by
  simp [countA, List.countP_append, List.countP_cons]

theorem countA_eraseKey {m : List (Nat × Nat)} {w t : Nat}
    (h : lookupW m w = some t) (tid : Nat) :
    countA tid (eraseKey w m) + (if t = tid then 1 else 0) = countA tid m := by
  obtain ⟨l1, l2, hdec, _, he⟩ := lookupW_some_decomp h
  subst hdec
  rw [he]
  simp [countA, List.countP_append, List.countP_cons]
  omega

theorem countQ_map_fst (tid : Nat) (q : List QueueItem) (o : Outcome) :
    countTid tid (q.map (fun it => (it.taskId, o))) = countQ tid q := by
  simp [countTid, countQ, List.countP_map]
  rfl

theorem countA_map_snd (tid : Nat) (m : List (Nat × Nat)) (o : Outcome) :
    countTid tid (m.map (fun p => (p.2, o))) = countA tid m := by
  simp [countTid, countA, List.countP_map]
  rfl

theorem timers_filter_sublist (p : Nat × Nat → Bool) (l : List (Nat × Nat)) :
    ((l.filter p).map Prod.fst).Sublist (l.map Prod.fst) :=
  (List.filter_sublist l).map Prod.fst

theorem length_le_of_nodup_subset {l1 l2 : List Nat}
    (h1 : l1.Nodup) (h2 : l2.Nodup) (hs : ∀ x, x ∈ l1 → x ∈ l2) :
    l1.length ≤ l2.length := by
  classical
  have hc1 : l1.toFinset.card = l1.length := List.toFinset_card_of_nodup h1
  have hc2 : l2.toFinset.card = l2.length := List.toFinset_card_of_nodup h2
  have : l1.toFinset ⊆ l2.toFinset := by
    intro x hx
    rw [List.mem_toFinset] at hx ⊢
    exact hs x hx
  have := Finset.card_le_card this
  omega

/-! ### Preservation of the invariant by `dispatch` -/

theorem core_dispatch {cap : Nat} {s : PoolState} (h : Core cap s) :
    Core cap (dispatch s) := by
  by_cases hstuck : s.isClosing = true ∨ s.taskQueue = [] ∨ s.idleWorkers = []
  · rw [dispatch_of_stuck hstuck]; exact h
  · push_neg at hstuck
    obtain ⟨hc, hq, hi⟩ := hstuck
    simp only [ne_eq, Bool.not_eq_true] at hc
    obtain ⟨it, q, hq⟩ := List.exists_cons_of_ne_nil hq
    obtain ⟨w, ws, hi⟩ := List.exists_cons_of_ne_nil hi
    rw [dispatch_cons hc hq hi]
    have hwidle : w ∈ s.idleWorkers := by rw [hi]; exact List.mem_cons_self _ _
    have hwin : w ∈ s.workers := h.idleSub w hwidle
    have hlw : lookupW s.workerTaskMap w = none := (h.part hc w hwin).mp hwidle
    have hwkeys : w ∉ s.workerTaskMap.map Prod.fst := (lookupW_eq_none _ _).mp hlw
    have hset : setKey w it.taskId s.workerTaskMap
        = s.workerTaskMap ++ [(w, it.taskId)] := setKey_of_none hlw _
    have hitq : it ∈ s.taskQueue := by rw [hq]; exact List.mem_cons_self _ _
    have hwnotws : w ∉ ws := by
      have := h.idleNodup
      rw [hi, List.nodup_cons] at this
      exact this.1
    have htimerw : ∀ p, p ∈ s.pendingTimers → p.1 ≠ w := by
      intro p hp hcontra
      have := h.timersMap p hp
      rw [hcontra, hlw] at this
      cases this
    refine ⟨?_, ?_, ?_, ?_, ?_, ?_, ?_, ?_, ?_, ?_, ?_, ?_, ?_, ?_, ?_, ?_, ?_, ?_, ?_, ?_⟩
    · exact h.numEq
    · exact h.workersNodup
    · -- idleNodup
      have := h.idleNodup
      rw [hi, List.nodup_cons] at this
      exact this.2
    · -- keysNodup
      simp only [assign, hset, List.map_append]
      exact nodup_append_singleton h.keysNodup hwkeys
    · -- idleSub
      intro x hx
      simp only [assign] at hx
      exact h.idleSub x (by rw [hi]; exact List.mem_cons_of_mem _ hx)
    · -- mapSub
      intro p hp
      simp only [assign, hset, List.mem_append, List.mem_singleton] at hp
      rcases hp with hp | hp
      · exact h.mapSub p hp
      · subst hp; exact hwin
    · -- part
      intro _ x hx
      simp only [assign] at hx ⊢
      rw [hset]
      by_cases hxw : x = w
      · subst hxw
        constructor
        · intro hmem; exact absurd hmem hwnotws
        · intro hnone
          rw [lookupW_append_of_none hlw, lookupW_singleton, if_pos rfl] at hnone
          cases hnone
      · have hxidle : x ∈ ws ↔ x ∈ s.idleWorkers := by
          rw [hi]
          simp [hxw]
        have hxlook : lookupW (s.workerTaskMap ++ [(w, it.taskId)]) x
            = lookupW s.workerTaskMap x := by
          cases hx2 : lookupW s.workerTaskMap x with
          | none =>
            rw [lookupW_append_of_none hx2, lookupW_singleton,
              if_neg (fun hcontra => hxw (hcontra.symm))]
          | some t => rw [lookupW_append_of_some hx2]
        rw [hxidle, hxlook]
        exact h.part hc x hx
    · -- capBound
      exact h.capBound
    · -- closingQueue
      intro hcl
      simp only [assign] at hcl
      rw [hc] at hcl
      cases hcl
    · -- closingMap
      intro hcl
      simp only [assign] at hcl
      rw [hc] at hcl
      cases hcl
    · -- timersMap
      intro p hp
      simp only [assign] at hp ⊢
      rw [hset]
      by_cases hht : s.hasTaskTimeout
      · rw [if_pos hht] at hp
        rw [List.mem_append, List.mem_singleton] at hp
        rcases hp with hp | hp
        · have := h.timersMap p hp
          rw [lookupW_append_of_some this]
        · subst hp
          rw [lookupW_append_of_none hlw, lookupW_singleton, if_pos rfl]
      · rw [if_neg hht] at hp
        have := h.timersMap p hp
        rw [lookupW_append_of_some this]
    · -- timersNodup
      simp only [assign]
      by_cases hht : s.hasTaskTimeout
      · rw [if_pos hht, List.map_append]
        refine nodup_append_singleton h.timersNodup ?_
        intro hcontra
        obtain ⟨p, hp, hfst⟩ := List.mem_map.mp hcontra
        exact htimerw p hp hfst
      · rw [if_neg hht]
        exact h.timersNodup
    · -- widBound
      exact h.widBound
    · -- flagBound
      exact h.flagBound
    · -- flagGone
      intro x hx
      have hfg := h.flagGone x hx
      simp only [assign]
      rw [hset]
      refine ⟨hfg.1, ?_⟩
      have hxw : x ≠ w := fun hcontra => hfg.1 (hcontra ▸ hwin)
      rw [lookupW_append_of_none hfg.2, lookupW_singleton,
        if_neg (fun hcontra => hxw hcontra.symm)]
    · -- removedAcc
      exact h.removedAcc
    · -- tidQueue
      intro x hx
      simp only [assign] at hx
      exact h.tidQueue x (by rw [hq]; exact List.mem_cons_of_mem _ hx)
    · -- tidMap
      intro p hp
      simp only [assign, hset, List.mem_append, List.mem_singleton] at hp
      rcases hp with hp | hp
      · exact h.tidMap p hp
      · subst hp
        exact h.tidQueue it hitq
    · -- tidLog
      exact h.tidLog
    · -- account
      intro tid htid
      have hacc := h.account tid htid
      simp only [assign]
      rw [hset, countA_app_single]
      rw [hq, countQ_cons] at hacc
      omega

theorem qOrI_dispatch {s : PoolState}
    (hlen : s.taskQueue.length ≤ 1 ∨ s.idleWorkers.length ≤ 1)
    (hcl : s.isClosing = true → s.taskQueue = []) :
    (dispatch s).taskQueue = [] ∨ (dispatch s).idleWorkers = [] := by
  by_cases hstuck : s.isClosing = true ∨ s.taskQueue = [] ∨ s.idleWorkers = []
  · rw [dispatch_of_stuck hstuck]
    rcases hstuck with hstuck | hstuck | hstuck
    · exact Or.inl (hcl hstuck)
    · exact Or.inl hstuck
    · exact Or.inr hstuck
  · push_neg at hstuck
    obtain ⟨hc, hq, hi⟩ := hstuck
    simp only [ne_eq, Bool.not_eq_true] at hc
    obtain ⟨it, q, hq⟩ := List.exists_cons_of_ne_nil hq
    obtain ⟨w, ws, hi⟩ := List.exists_cons_of_ne_nil hi
    rw [dispatch_cons hc hq hi]
    simp only [assign]
    rcases hlen with hlen | hlen
    · rw [hq] at hlen
      simp only [List.length_cons] at hlen
      exact Or.inl (List.eq_nil_of_length_eq_zero (by omega))
    · rw [hi] at hlen
      simp only [List.length_cons] at hlen
      exact Or.inr (List.eq_nil_of_length_eq_zero (by omega))

/-! ### Preservation by `spawnWorker`, `removeWorker`, `replaceWorker` -/

theorem spawnWorker_closing {s : PoolState} (hc : s.isClosing = true) :
    spawnWorker s = s := by
  unfold spawnWorker
  rw [if_pos hc]

theorem inv_spawn {cap : Nat} {s : PoolState} (h : Core cap s)
    (hq : s.taskQueue = [] ∨ s.idleWorkers = [])
    (hcap : s.isClosing = false → s.workers.length < cap) :
    Inv cap (spawnWorker s) := by
  by_cases hcl : s.isClosing = true
  · rw [spawnWorker_closing hcl]
    exact ⟨h, hq⟩
  · have hc : s.isClosing = false := by
      simpa [ne_eq, Bool.not_eq_true] using hcl
    unfold spawnWorker
    rw [if_neg hcl]
    set w' := s.nextWorkerId with hw'
    have hw'workers : w' ∉ s.workers := by
      intro hmem
      exact absurd (h.widBound w' hmem) (lt_irrefl w')
    have hw'idle : w' ∉ s.idleWorkers := fun hmem => hw'workers (h.idleSub w' hmem)
    have hw'keys : lookupW s.workerTaskMap w' = none := by
      rw [lookupW_eq_none]
      intro hmem
      obtain ⟨p, hp, hfst⟩ := List.mem_map.mp hmem
      exact hw'workers (hfst ▸ h.mapSub p hp)
    have hcore : Core cap
        { s with
          nextWorkerId := w' + 1, spawnCount := s.spawnCount + 1,
          workers := s.workers ++ [w'], idleWorkers := s.idleWorkers ++ [w'] } := by
      refine ⟨h.numEq, ?_, ?_, h.keysNodup, ?_, ?_, ?_, ?_, ?_, ?_,
        h.timersMap, h.timersNodup, ?_, ?_, ?_, ?_, h.tidQueue, h.tidMap,
        h.tidLog, h.account⟩
      · exact nodup_append_singleton h.workersNodup hw'workers
      · exact nodup_append_singleton h.idleNodup hw'idle
      · -- idleSub
        intro x hx
        rw [List.mem_append, List.mem_singleton] at hx ⊢
        rcases hx with hx | hx
        · exact Or.inl (h.idleSub x hx)
        · exact Or.inr hx
      · -- mapSub
        intro p hp
        rw [List.mem_append]
        exact Or.inl (h.mapSub p hp)
      · -- part
        intro _ x hx
        rw [List.mem_append, List.mem_singleton] at hx
        rcases hx with hx | hx
        · have hxw : x ≠ w' := fun hcontra =>
            absurd (h.widBound x hx) (by rw [hcontra]; exact lt_irrefl w')
          rw [List.mem_append, List.mem_singleton]
          constructor
          · rintro (hmem | hmem)
            · exact (h.part hc x hx).mp hmem
            · exact absurd hmem hxw
          · intro hnone
            exact Or.inl ((h.part hc x hx).mpr hnone)
        · subst hx
          simp only [List.mem_append, List.mem_singleton, or_true, true_iff]
          exact hw'keys
      · -- capBound
        rw [List.length_append, List.length_singleton]
        have := hcap hc
        omega
      · -- closingQueue
        intro hcl2
        rw [hc] at hcl2
        cases hcl2
      · -- closingMap
        intro hcl2
        rw [hc] at hcl2
        cases hcl2
      · -- widBound
        intro x hx
        rw [List.mem_append, List.mem_singleton] at hx
        rcases hx with hx | hx
        · exact Nat.lt_succ_of_lt (h.widBound x hx)
        · subst hx; exact Nat.lt_succ_self _
      · -- flagBound
        intro x hx
        exact Nat.lt_succ_of_lt (h.flagBound x hx)
      · -- flagGone
        intro x hx
        obtain ⟨h1, h2⟩ := h.flagGone x hx
        refine ⟨?_, h2⟩
        rw [List.mem_append, List.mem_singleton]
        rintro (hmem | hmem)
        · exact h1 hmem
        · subst hmem
          exact absurd (h.flagBound w' hx) (lt_irrefl w')
      · -- removedAcc
        intro x hx hnmem
        rw [List.mem_append, List.mem_singleton] at hnmem
        push_neg at hnmem
        have : x < w' := by
          rcases Nat.lt_succ_iff_lt_or_eq.mp hx with hlt | heq
          · exact hlt
          · exact absurd heq hnmem.2
        exact h.removedAcc x this hnmem.1
    refine ⟨core_dispatch hcore, qOrI_dispatch ?_ ?_⟩
    · rcases hq with hq | hq
      · exact Or.inl (by simp [hq])
      · exact Or.inr (by simp [hq])
    · intro hcl2
      simp only at hcl2
      rw [hc] at hcl2
      cases hcl2

/-- The facts available about the state just before a `replaceWorker w` (or
plain `removeWorker w`) call inside an event handler: the full invariant of
the pre-event state, weakened at `w` itself (whose assignment has just been
cleared, and which has just been attributed a termination reason or its own
exit). -/
structure PreReplace (cap : Nat) (w : Nat) (s : PoolState) : Prop where
  numEq : s.numThreads = cap
  workersNodup : s.workers.Nodup
  idleNodup : s.idleWorkers.Nodup
  keysNodup : (s.workerTaskMap.map Prod.fst).Nodup
  idleSub : ∀ x, x ∈ s.idleWorkers → x ∈ s.workers
  mapSub : ∀ p, p ∈ s.workerTaskMap → p.1 ∈ s.workers
  partNe : s.isClosing = false → ∀ x, x ∈ s.workers → x ≠ w →
    (x ∈ s.idleWorkers ↔ lookupW s.workerTaskMap x = none)
  capBound : s.workers.length ≤ cap
  queueOrIdle : s.taskQueue = [] ∨ s.idleWorkers = []
  closingQueue : s.isClosing = true → s.taskQueue = []
  closingMap : s.isClosing = true → s.workerTaskMap = []
  timersMap : ∀ p, p ∈ s.pendingTimers → lookupW s.workerTaskMap p.1 = some p.2
  timersNodup : (s.pendingTimers.map Prod.fst).Nodup
  widBound : ∀ x, x ∈ s.workers → x < s.nextWorkerId
  flagBound : ∀ x, x ∈ s.timedOutWorkers ∨ x ∈ s.erroredWorkers → x < s.nextWorkerId
  flagGoneNe : ∀ x, x ≠ w → x ∈ s.timedOutWorkers ∨ x ∈ s.erroredWorkers →
    x ∉ s.workers ∧ lookupW s.workerTaskMap x = none
  wNone : lookupW s.workerTaskMap w = none
  wFlag : w ∈ s.exitedWorkers ∨ w ∈ s.timedOutWorkers ∨ w ∈ s.erroredWorkers
  removedAcc : ∀ x, x < s.nextWorkerId → x ∉ s.workers →
    x ∈ s.exitedWorkers ∨ x ∈ s.timedOutWorkers ∨ x ∈ s.erroredWorkers
  tidQueue : ∀ it, it ∈ s.taskQueue → it.taskId < s.nextTaskId
  tidMap : ∀ p, p ∈ s.workerTaskMap → p.2 < s.nextTaskId
  tidLog : ∀ e, e ∈ s.settleLog → e.1 < s.nextTaskId
  account : ∀ tid, tid < s.nextTaskId →
    countTid tid s.settleLog + countQ tid s.taskQueue + countA tid s.workerTaskMap = 1

theorem core_removeWorker {cap w : Nat} {s : PoolState}
    (h : PreReplace cap w s) : Core cap (removeWorker w s) := by
  refine ⟨h.numEq, h.workersNodup.filter _, h.idleNodup.filter _, h.keysNodup,
    ?_, ?_, ?_, ?_, h.closingQueue, h.closingMap, h.timersMap, h.timersNodup,
    ?_, h.flagBound, ?_, ?_, h.tidQueue, h.tidMap, h.tidLog, h.account⟩
  · -- idleSub
    intro x hx
    simp only [removeWorker, List.mem_filter] at hx ⊢
    exact ⟨h.idleSub x hx.1, hx.2⟩
  · -- mapSub
    intro p hp
    simp only [removeWorker] at hp ⊢
    rw [List.mem_filter]
    refine ⟨h.mapSub p hp, ?_⟩
    simp only [ne_eq, decide_eq_true_eq]
    intro hcontra
    have := lookupW_isSome_of_mem (hcontra ▸ hp : (w, p.2) ∈ s.workerTaskMap)
    exact this h.wNone
  · -- part
    intro hc x hx
    simp only [removeWorker] at hc hx ⊢
    rw [List.mem_filter] at hx
    obtain ⟨hx, hxw⟩ := hx
    simp only [ne_eq, decide_eq_true_eq] at hxw
    rw [List.mem_filter]
    have := h.partNe hc x hx hxw
    constructor
    · intro hmem
      exact this.mp hmem.1
    · intro hnone
      exact ⟨this.mpr hnone, by simpa using hxw⟩
  · -- capBound
    exact le_trans (length_filter_ne_le w s.workers) h.capBound
  · -- widBound
    intro x hx
    simp only [removeWorker] at hx ⊢
    rw [List.mem_filter] at hx
    exact h.widBound x hx.1
  · -- flagGone
    intro x hx
    simp only [removeWorker] at hx ⊢
    by_cases hxw : x = w
    · subst hxw
      refine ⟨?_, h.wNone⟩
      rw [List.mem_filter]
      simp
    · obtain ⟨h1, h2⟩ := h.flagGoneNe x hxw hx
      refine ⟨?_, h2⟩
      rw [List.mem_filter]
      exact fun hmem => h1 hmem.1
  · -- removedAcc
    intro x hx hnmem
    simp only [removeWorker] at hx hnmem ⊢
    by_cases hxmem : x ∈ s.workers
    · have hxw : x = w := by
        by_contra hxw
        apply hnmem
        rw [List.mem_filter]
        exact ⟨hxmem, by simpa using hxw⟩
      subst hxw
      exact h.wFlag
    · exact h.removedAcc x hx hxmem

theorem qOrI_removeWorker {w : Nat} {s : PoolState}
    (h : s.taskQueue = [] ∨ s.idleWorkers = []) :
    (removeWorker w s).taskQueue = [] ∨ (removeWorker w s).idleWorkers = [] := by
  rcases h with h | h
  · exact Or.inl h
  · exact Or.inr (by simp [removeWorker, h])

theorem inv_removeWorker {cap w : Nat} {s : PoolState}
    (h : PreReplace cap w s) : Inv cap (removeWorker w s) :=
  ⟨core_removeWorker h, qOrI_removeWorker h.queueOrIdle⟩

theorem inv_replaceWorker {cap w : Nat} {s : PoolState}
    (h : PreReplace cap w s) (hwMem : s.isClosing = false → w ∈ s.workers) :
    Inv cap (replaceWorker w s) := by
  unfold replaceWorker
  refine inv_spawn (core_removeWorker h) (qOrI_removeWorker h.queueOrIdle) ?_
  intro hc
  have hwmem := hwMem hc
  have := length_filter_ne_of_mem h.workersNodup hwmem
  have hcap := h.capBound
  simp only [removeWorker]
  omega

/-! ### Equation lemmas for the handlers -/

theorem onMessage_none {s : PoolState} {w : Nat} (msg : WorkerMessage)
    (hlw : lookupW s.workerTaskMap w = none) : onMessage w msg s = s := by
  unfold onMessage
  rw [hlw]

theorem onMessage_some {s : PoolState} {w tid : Nat} (msg : WorkerMessage)
    (hlw : lookupW s.workerTaskMap w = some tid) :
    onMessage w msg s = dispatch
      { s with
        pendingTimers := s.pendingTimers.filter (fun p => p.1 ≠ w)
        settleLog := s.settleLog ++
          [(tid, match msg.status with
            | MsgStatus.ok => Outcome.resolved msg.data
            | MsgStatus.error => Outcome.rejected (Failure.computeError msg.error))]
        workerTaskMap := eraseKey w s.workerTaskMap
        idleWorkers := s.idleWorkers ++ [w] } := by
  unfold onMessage
  rw [hlw]
  rfl

theorem onError_none {s : PoolState} {w : Nat}
    (hlw : lookupW s.workerTaskMap w = none) :
    onError w s = replaceWorker w
      { s with erroredWorkers := addW w s.erroredWorkers } := by
  unfold onError
  dsimp only
  rw [hlw]

theorem onError_some {s : PoolState} {w tid : Nat}
    (hlw : lookupW s.workerTaskMap w = some tid) :
    onError w s = replaceWorker w
      { s with
        erroredWorkers := addW w s.erroredWorkers
        pendingTimers := s.pendingTimers.filter (fun p => p.1 ≠ w)
        settleLog := s.settleLog ++ [(tid, Outcome.rejected Failure.workerFault)]
        workerTaskMap := eraseKey w s.workerTaskMap } := by
  unfold onError
  dsimp only
  rw [hlw]
  rfl

theorem onExit_attributed {s : PoolState} {w : Nat} (code : Nat)
    (hattr : w ∈ s.timedOutWorkers ∨ w ∈ s.erroredWorkers) :
    onExit w code s = removeWorker w
      { s with
        timedOutWorkers := removeW w s.timedOutWorkers
        erroredWorkers := removeW w s.erroredWorkers
        exitedWorkers := addW w s.exitedWorkers } := by
  unfold onExit
  dsimp only
  rcases hattr with hattr | hattr
  · rw [if_neg (by simp [hattr]), if_neg (by simp [hattr])]
  · rw [if_neg (by simp [hattr]), if_neg (by simp [hattr])]

theorem onExit_closing {s : PoolState} {w code : Nat}
    (hcl : s.isClosing = true)
    (ht : w ∉ s.timedOutWorkers) (he : w ∉ s.erroredWorkers) (hcode : code ≠ 0) :
    onExit w code s = replaceWorker w
      { s with
        timedOutWorkers := removeW w s.timedOutWorkers
        erroredWorkers := removeW w s.erroredWorkers
        exitedWorkers := addW w s.exitedWorkers } := by
  unfold onExit
  dsimp only
  have hnot : ¬(code ≠ 0 ∧ s.isClosing = false ∧ ¬w ∈ s.timedOutWorkers ∧ ¬w ∈ s.erroredWorkers) := by
    rintro ⟨-, hcf, -, -⟩
    rw [hcl] at hcf
    cases hcf
  rw [if_neg hnot, if_pos ⟨hcode, ht, he⟩]

theorem onExit_live_none {s : PoolState} {w code : Nat}
    (hcl : s.isClosing = false)
    (ht : w ∉ s.timedOutWorkers) (he : w ∉ s.erroredWorkers) (hcode : code ≠ 0)
    (hlw : lookupW s.workerTaskMap w = none) :
    onExit w code s = replaceWorker w
      { s with
        timedOutWorkers := removeW w s.timedOutWorkers
        erroredWorkers := removeW w s.erroredWorkers
        exitedWorkers := addW w s.exitedWorkers } := by
  unfold onExit
  dsimp only
  have hyes : code ≠ 0 ∧ s.isClosing = false ∧ ¬w ∈ s.timedOutWorkers ∧ ¬w ∈ s.erroredWorkers :=
    ⟨hcode, hcl, ht, he⟩
  have hyes2 : code ≠ 0 ∧ ¬w ∈ s.timedOutWorkers ∧ ¬w ∈ s.erroredWorkers :=
    ⟨hcode, ht, he⟩
  rw [if_pos hyes, hlw, if_pos hyes2]

theorem onExit_live_some {s : PoolState} {w code tid : Nat}
    (hcl : s.isClosing = false)
    (ht : w ∉ s.timedOutWorkers) (he : w ∉ s.erroredWorkers) (hcode : code ≠ 0)
    (hlw : lookupW s.workerTaskMap w = some tid) :
    onExit w code s = replaceWorker w
      { s with
        timedOutWorkers := removeW w s.timedOutWorkers
        erroredWorkers := removeW w s.erroredWorkers
        exitedWorkers := addW w s.exitedWorkers
        pendingTimers := s.pendingTimers.filter (fun p => p.1 ≠ w)
        settleLog := s.settleLog ++ [(tid, Outcome.rejected (Failure.workerExit code))]
        workerTaskMap := eraseKey w s.workerTaskMap } := by
  unfold onExit
  dsimp only
  have hyes : code ≠ 0 ∧ s.isClosing = false ∧ ¬w ∈ s.timedOutWorkers ∧ ¬w ∈ s.erroredWorkers :=
    ⟨hcode, hcl, ht, he⟩
  have hyes2 : code ≠ 0 ∧ ¬w ∈ s.timedOutWorkers ∧ ¬w ∈ s.erroredWorkers :=
    ⟨hcode, ht, he⟩
  rw [if_pos hyes, hlw, if_pos hyes2]
  rfl

theorem fireTimeout_guard {s : PoolState} {w : Nat} (tid : Nat)
    (hlw : lookupW s.workerTaskMap w = none) : fireTimeout w tid s = s := by
  unfold fireTimeout
  rw [hlw]

theorem fireTimeout_some {s : PoolState} {w tid2 : Nat} (tid : Nat)
    (hlw : lookupW s.workerTaskMap w = some tid2) :
    fireTimeout w tid s = dispatch (replaceWorker w
      { s with
        workerTaskMap := eraseKey w s.workerTaskMap
        settleLog := s.settleLog ++ [(tid, Outcome.rejected Failure.timedOut)]
        timedOutWorkers := addW w s.timedOutWorkers
        terminated := addW w s.terminated }) := by
  unfold fireTimeout
  rw [hlw]
  rfl

theorem runTask_closing {s : PoolState} (t : WorkerTask)
    (hcl : s.isClosing = true) :
    runTask t s =
      { s with
        nextTaskId := s.nextTaskId + 1
        settleLog := s.settleLog ++
          [(s.nextTaskId, Outcome.rejected Failure.poolClosing)] } := by
  unfold runTask
  rw [if_pos hcl]
  rfl

theorem runTask_open {s : PoolState} (t : WorkerTask)
    (hcl : s.isClosing = false) :
    runTask t s = dispatch
      { s with
        nextTaskId := s.nextTaskId + 1
        taskQueue := s.taskQueue ++ [⟨t, s.nextTaskId⟩] } := by
  unfold runTask
  rw [if_neg (by simp [hcl])]

/-- `dispatch` only moves a task from the queue to an idle worker: every
other field of the state is untouched. -/
theorem dispatch_frame (s : PoolState) :
    (dispatch s).workers = s.workers ∧
    (dispatch s).isClosing = s.isClosing ∧
    (dispatch s).settleLog = s.settleLog ∧
    (dispatch s).spawnCount = s.spawnCount ∧
    (dispatch s).nextWorkerId = s.nextWorkerId ∧
    (dispatch s).nextTaskId = s.nextTaskId ∧
    (dispatch s).numThreads = s.numThreads ∧
    (dispatch s).hasTaskTimeout = s.hasTaskTimeout ∧
    (dispatch s).terminated = s.terminated ∧
    (dispatch s).exitedWorkers = s.exitedWorkers ∧
    (dispatch s).timedOutWorkers = s.timedOutWorkers ∧
    (dispatch s).erroredWorkers = s.erroredWorkers := by
  by_cases hstuck : s.isClosing = true ∨ s.taskQueue = [] ∨ s.idleWorkers = []
  · rw [dispatch_of_stuck hstuck]
    exact ⟨rfl, rfl, rfl, rfl, rfl, rfl, rfl, rfl, rfl, rfl, rfl, rfl⟩
  · push_neg at hstuck
    obtain ⟨hc, hq, hi⟩ := hstuck
    simp only [ne_eq, Bool.not_eq_true] at hc
    obtain ⟨it, q, hq⟩ := List.exists_cons_of_ne_nil hq
    obtain ⟨w, ws, hi⟩ := List.exists_cons_of_ne_nil hi
    rw [dispatch_cons hc hq hi]
    exact ⟨rfl, rfl, rfl, rfl, rfl, rfl, rfl, rfl, rfl, rfl, rfl, rfl⟩

theorem spawnWorker_open {s : PoolState} (hc : s.isClosing = false) :
    spawnWorker s = dispatch
      { s with
        nextWorkerId := s.nextWorkerId + 1
        spawnCount := s.spawnCount + 1
        workers := s.workers ++ [s.nextWorkerId]
        idleWorkers := s.idleWorkers ++ [s.nextWorkerId] } := by
  unfold spawnWorker
  rw [if_neg (by simp [hc])]

/-! ### Preservation by the event handlers -/

theorem inv_runTask {cap : Nat} {s : PoolState} (h : Inv cap s)
    (t : WorkerTask) : Inv cap (runTask t s) := by
  unfold runTask
  by_cases hcl : s.isClosing = true
  · rw [if_pos hcl]
    refine ⟨⟨h.numEq, h.workersNodup, h.idleNodup, h.keysNodup, h.idleSub,
      h.mapSub, ?_, h.capBound, ?_, ?_, h.timersMap, h.timersNodup,
      h.widBound, h.flagBound, h.flagGone, h.removedAcc, ?_, ?_, ?_, ?_⟩, ?_⟩
    · -- part
      intro hc
      rw [hcl] at hc
      cases hc
    · -- closingQueue
      intro _
      exact h.closingQueue hcl
    · -- closingMap
      intro _
      exact h.closingMap hcl
    · -- tidQueue
      intro it hit
      exact Nat.lt_succ_of_lt (h.tidQueue it hit)
    · -- tidMap
      intro p hp
      exact Nat.lt_succ_of_lt (h.tidMap p hp)
    · -- tidLog
      intro e he
      simp only [settle, List.mem_append, List.mem_singleton] at he
      rcases he with he | he
      · exact Nat.lt_succ_of_lt (h.tidLog e he)
      · subst he
        exact Nat.lt_succ_self _
    · -- account
      intro tid htid
      simp only [settle]
      rw [countTid_app_single]
      rcases Nat.lt_succ_iff_lt_or_eq.mp htid with hlt | heq
      · have := h.account tid hlt
        have hne : s.nextTaskId ≠ tid := fun hcontra => absurd hlt (by omega)
        rw [if_neg hne]
        omega
      · subst heq
        rw [if_pos rfl]
        have h1 : countTid s.nextTaskId s.settleLog = 0 :=
          countTid_zero_of_big (fun e he => Nat.ne_of_lt (h.tidLog e he))
        have h2 : countQ s.nextTaskId s.taskQueue = 0 :=
          countQ_zero_of_big (fun it hit => Nat.ne_of_lt (h.tidQueue it hit))
        have h3 : countA s.nextTaskId s.workerTaskMap = 0 :=
          countA_zero_of_big (fun p hp => Nat.ne_of_lt (h.tidMap p hp))
        omega
    · -- queueOrIdle
      exact h.queueOrIdle
  · have hc : s.isClosing = false := by
      simpa [ne_eq, Bool.not_eq_true] using hcl
    rw [if_neg hcl]
    dsimp only
    refine ⟨core_dispatch ?_, qOrI_dispatch ?_ ?_⟩
    · refine ⟨h.numEq, h.workersNodup, h.idleNodup, h.keysNodup, h.idleSub,
        h.mapSub, ?_, h.capBound, ?_, ?_, h.timersMap, h.timersNodup,
        h.widBound, h.flagBound, h.flagGone, h.removedAcc, ?_, ?_, ?_, ?_⟩
      · -- part
        intro _
        exact h.part hc
      · -- closingQueue
        intro hcl2
        simp only at hcl2
        rw [hc] at hcl2
        cases hcl2
      · -- closingMap
        intro hcl2
        simp only at hcl2
        rw [hc] at hcl2
        cases hcl2
      · -- tidQueue
        intro it hit
        simp only [List.mem_append, List.mem_singleton] at hit
        rcases hit with hit | hit
        · exact Nat.lt_succ_of_lt (h.tidQueue it hit)
        · subst hit
          exact Nat.lt_succ_self _
      · -- tidMap
        intro p hp
        exact Nat.lt_succ_of_lt (h.tidMap p hp)
      · -- tidLog
        intro e he
        exact Nat.lt_succ_of_lt (h.tidLog e he)
      · -- account
        intro tid htid
        dsimp only at htid ⊢
        rw [countQ_append]
        rcases Nat.lt_succ_iff_lt_or_eq.mp htid with hlt | heq
        · have := h.account tid hlt
          have hone : countQ tid [(⟨t, s.nextTaskId⟩ : QueueItem)] = 0 := by
            refine countQ_zero_of_big ?_
            intro it hit
            rw [List.mem_singleton] at hit
            subst hit
            exact fun hcontra => absurd hlt (by simp at hcontra; omega)
          omega
        · subst heq
          have h1 : countTid s.nextTaskId s.settleLog = 0 :=
            countTid_zero_of_big (fun e he => Nat.ne_of_lt (h.tidLog e he))
          have h2 : countQ s.nextTaskId s.taskQueue = 0 :=
            countQ_zero_of_big (fun it hit => Nat.ne_of_lt (h.tidQueue it hit))
          have h3 : countA s.nextTaskId s.workerTaskMap = 0 :=
            countA_zero_of_big (fun p hp => Nat.ne_of_lt (h.tidMap p hp))
          have hone : countQ s.nextTaskId [(⟨t, s.nextTaskId⟩ : QueueItem)] = 1 := by
            simp [countQ, List.countP_cons]
          omega
    · -- queue/idle lengths for the dispatch
      rcases h.queueOrIdle with hq | hi
      · exact Or.inl (by simp [hq])
      · exact Or.inr (by simp [hi])
    · -- closing hypothesis for the dispatch
      intro hcl2
      simp only at hcl2
      rw [hc] at hcl2
      cases hcl2

theorem inv_onMessage {cap : Nat} {s : PoolState} (h : Inv cap s)
    (w : Nat) (msg : WorkerMessage) : Inv cap (onMessage w msg s) := by
  unfold onMessage
  cases hlw : lookupW s.workerTaskMap w with
  | none => exact h
  | some tid =>
    have hwmem : (w, tid) ∈ s.workerTaskMap := lookupW_mem hlw
    have hwin : w ∈ s.workers := h.mapSub (w, tid) hwmem
    have hc : s.isClosing = false := by
      by_contra hcl
      rw [Bool.not_eq_false] at hcl
      rw [h.closingMap hcl] at hlw
      cases hlw
    have hwnidle : w ∉ s.idleWorkers := by
      intro hmem
      rw [(h.part hc w hwin).mp hmem] at hlw
      cases hlw
    refine ⟨core_dispatch ?_, qOrI_dispatch ?_ ?_⟩
    · refine ⟨h.numEq, h.workersNodup, ?_, ?_, ?_, ?_, ?_, h.capBound,
        ?_, ?_, ?_, ?_, h.widBound, h.flagBound, ?_, h.removedAcc,
        h.tidQueue, ?_, ?_, ?_⟩
      · -- idleNodup
        exact nodup_append_singleton h.idleNodup hwnidle
      · -- keysNodup
        exact (keys_eraseKey_sublist w _).nodup h.keysNodup
      · -- idleSub
        intro x hx
        simp only [settle, clearTimer, List.mem_append, List.mem_singleton] at hx
        rcases hx with hx | hx
        · exact h.idleSub x hx
        · subst hx
          exact hwin
      · -- mapSub
        intro p hp
        simp only [settle, clearTimer] at hp
        exact h.mapSub p (mem_of_mem_eraseKey hp)
      · -- part
        intro _ x hx
        simp only [settle, clearTimer] at hx ⊢
        by_cases hxw : x = w
        · subst hxw
          simp only [List.mem_append, List.mem_singleton, or_true, true_iff]
          exact lookupW_eraseKey_self h.keysNodup
        · rw [lookupW_eraseKey_ne hxw, List.mem_append, List.mem_singleton]
          have := h.part hc x hx
          constructor
          · rintro (hmem | hmem)
            · exact this.mp hmem
            · exact absurd hmem hxw
          · intro hnone
            exact Or.inl (this.mpr hnone)
      · -- closingQueue
        intro hcl2
        simp only [settle, clearTimer] at hcl2
        rw [hc] at hcl2
        cases hcl2
      · -- closingMap
        intro hcl2
        simp only [settle, clearTimer] at hcl2
        rw [hc] at hcl2
        cases hcl2
      · -- timersMap
        intro p hp
        simp only [settle, clearTimer, List.mem_filter] at hp ⊢
        obtain ⟨hp, hpw⟩ := hp
        simp only [ne_eq, decide_eq_true_eq] at hpw
        rw [lookupW_eraseKey_ne hpw]
        exact h.timersMap p hp
      · -- timersNodup
        exact (timers_filter_sublist _ _).nodup h.timersNodup
      · -- flagGone
        intro x hx
        obtain ⟨h1, h2⟩ := h.flagGone x hx
        refine ⟨h1, ?_⟩
        simp only [settle, clearTimer]
        have hxw : x ≠ w := fun hcontra => h1 (hcontra ▸ hwin)
        rw [lookupW_eraseKey_ne hxw]
        exact h2
      · -- tidMap
        intro p hp
        simp only [settle, clearTimer] at hp
        exact h.tidMap p (mem_of_mem_eraseKey hp)
      · -- tidLog
        intro e he
        simp only [settle, clearTimer, List.mem_append, List.mem_singleton] at he
        rcases he with he | he
        · exact h.tidLog e he
        · subst he
          exact h.tidMap (w, tid) hwmem
      · -- account
        intro tid2 htid2
        simp only [settle, clearTimer]
        rw [countTid_app_single]
        have herase := countA_eraseKey hlw tid2
        have := h.account tid2 htid2
        omega
    · -- queue/idle lengths for the dispatch
      rcases h.queueOrIdle with hq | hi
      · exact Or.inl (by simp [settle, clearTimer, hq])
      · exact Or.inr (by simp [settle, clearTimer, hi])
    · -- closing hypothesis for the dispatch
      intro hcl2
      simp only [settle, clearTimer] at hcl2
      rw [hc] at hcl2
      cases hcl2

theorem inv_onError {cap : Nat} {s : PoolState} (h : Inv cap s)
    {w : Nat} (hw : w ∈ s.workers) : Inv cap (onError w s) := by
  cases hlw : lookupW s.workerTaskMap w with
  | none =>
    rw [onError_none hlw]
    refine inv_replaceWorker ⟨h.numEq, h.workersNodup, h.idleNodup, h.keysNodup,
      h.idleSub, h.mapSub, ?_, h.capBound, h.queueOrIdle, h.closingQueue,
      h.closingMap, h.timersMap, h.timersNodup, h.widBound, ?_, ?_, hlw, ?_, ?_,
      h.tidQueue, h.tidMap, h.tidLog, h.account⟩ (fun _ => hw)
    · -- partNe
      intro hc x hx _
      exact h.part hc x hx
    · -- flagBound
      intro x hx
      rcases hx with hx | hx
      · exact h.flagBound x (Or.inl hx)
      · rcases mem_addW.mp hx with hx | hx
        · exact h.flagBound x (Or.inr hx)
        · subst hx
          exact h.widBound x hw
    · -- flagGoneNe
      intro x hxw hx
      refine h.flagGone x ?_
      rcases hx with hx | hx
      · exact Or.inl hx
      · rcases mem_addW.mp hx with hx | hx
        · exact Or.inr hx
        · exact absurd hx hxw
    · -- wFlag
      exact Or.inr (Or.inr (mem_addW.mpr (Or.inr rfl)))
    · -- removedAcc
      intro x hxid hxn
      rcases h.removedAcc x hxid hxn with hacc | hacc | hacc
      · exact Or.inl hacc
      · exact Or.inr (Or.inl hacc)
      · exact Or.inr (Or.inr (mem_addW.mpr (Or.inl hacc)))
  | some tid =>
    have hc : s.isClosing = false := by
      by_contra hcl
      rw [Bool.not_eq_false] at hcl
      rw [h.closingMap hcl] at hlw
      cases hlw
    rw [onError_some hlw]
    refine inv_replaceWorker ⟨h.numEq, h.workersNodup, h.idleNodup,
      (keys_eraseKey_sublist w _).nodup h.keysNodup, h.idleSub, ?_, ?_,
      h.capBound, h.queueOrIdle, ?_, ?_, ?_, (timers_filter_sublist _ _).nodup h.timersNodup,
      h.widBound, ?_, ?_, lookupW_eraseKey_self h.keysNodup, ?_, ?_,
      h.tidQueue, ?_, ?_, ?_⟩ (fun _ => hw)
    · -- mapSub
      intro p hp
      exact h.mapSub p (mem_of_mem_eraseKey hp)
    · -- partNe
      intro hc2 x hx hxw
      rw [lookupW_eraseKey_ne hxw]
      exact h.part hc x hx
    · -- closingQueue
      intro hcl2
      rw [hc] at hcl2
      cases hcl2
    · -- closingMap
      intro hcl2
      rw [hc] at hcl2
      cases hcl2
    · -- timersMap
      intro p hp
      rw [List.mem_filter] at hp
      obtain ⟨hp, hpw⟩ := hp
      simp only [ne_eq, decide_eq_true_eq] at hpw
      rw [lookupW_eraseKey_ne hpw]
      exact h.timersMap p hp
    · -- flagBound
      intro x hx
      rcases hx with hx | hx
      · exact h.flagBound x (Or.inl hx)
      · rcases mem_addW.mp hx with hx | hx
        · exact h.flagBound x (Or.inr hx)
        · subst hx
          exact h.widBound x hw
    · -- flagGoneNe
      intro x hxw hx
      have hfg : x ∈ s.timedOutWorkers ∨ x ∈ s.erroredWorkers := by
        rcases hx with hx | hx
        · exact Or.inl hx
        · rcases mem_addW.mp hx with hx | hx
          · exact Or.inr hx
          · exact absurd hx hxw
      obtain ⟨h1, h2⟩ := h.flagGone x hfg
      refine ⟨h1, ?_⟩
      rw [lookupW_eraseKey_ne hxw]
      exact h2
    · -- wFlag
      exact Or.inr (Or.inr (mem_addW.mpr (Or.inr rfl)))
    · -- removedAcc
      intro x hxid hxn
      rcases h.removedAcc x hxid hxn with hacc | hacc | hacc
      · exact Or.inl hacc
      · exact Or.inr (Or.inl hacc)
      · exact Or.inr (Or.inr (mem_addW.mpr (Or.inl hacc)))
    · -- tidMap
      intro p hp
      exact h.tidMap p (mem_of_mem_eraseKey hp)
    · -- tidLog
      intro e he
      rw [List.mem_append, List.mem_singleton] at he
      rcases he with he | he
      · exact h.tidLog e he
      · subst he
        exact h.tidMap (w, tid) (lookupW_mem hlw)
    · -- account
      intro tid2 htid2
      dsimp only at htid2 ⊢
      rw [countTid_app_single]
      have herase := countA_eraseKey hlw tid2
      have := h.account tid2 htid2
      omega

theorem inv_onExit {cap : Nat} {s : PoolState} (h : Inv cap s)
    {w code : Nat} (hwid : w < s.nextWorkerId) (hx : w ∉ s.exitedWorkers)
    (hcode : code ≠ 0) : Inv cap (onExit w code s) := by
  by_cases hattr : w ∈ s.timedOutWorkers ∨ w ∈ s.erroredWorkers
  · have hfg := h.flagGone w hattr
    rw [onExit_attributed code hattr]
    refine inv_removeWorker ⟨h.numEq, h.workersNodup, h.idleNodup, h.keysNodup,
      h.idleSub, h.mapSub, ?_, h.capBound, h.queueOrIdle, h.closingQueue,
      h.closingMap, h.timersMap, h.timersNodup, h.widBound, ?_, ?_, hfg.2, ?_, ?_,
      h.tidQueue, h.tidMap, h.tidLog, h.account⟩
    · -- partNe
      intro hc x hx2 _
      exact h.part hc x hx2
    · -- flagBound
      intro x hx2
      rcases hx2 with hx2 | hx2
      · exact h.flagBound x (Or.inl (mem_removeW.mp hx2).1)
      · exact h.flagBound x (Or.inr (mem_removeW.mp hx2).1)
    · -- flagGoneNe
      intro x _ hx2
      refine h.flagGone x ?_
      rcases hx2 with hx2 | hx2
      · exact Or.inl (mem_removeW.mp hx2).1
      · exact Or.inr (mem_removeW.mp hx2).1
    · -- wFlag
      exact Or.inl (mem_addW.mpr (Or.inr rfl))
    · -- removedAcc
      intro x hxid hxn
      by_cases hxw : x = w
      · subst hxw
        exact Or.inl (mem_addW.mpr (Or.inr rfl))
      · rcases h.removedAcc x hxid hxn with hacc | hacc | hacc
        · exact Or.inl (mem_addW.mpr (Or.inl hacc))
        · exact Or.inr (Or.inl (mem_removeW.mpr ⟨hacc, hxw⟩))
        · exact Or.inr (Or.inr (mem_removeW.mpr ⟨hacc, hxw⟩))
  · push_neg at hattr
    obtain ⟨ht, he⟩ := hattr
    by_cases hcl : s.isClosing = true
    · rw [onExit_closing hcl ht he hcode]
      refine inv_replaceWorker ⟨h.numEq, h.workersNodup, h.idleNodup, h.keysNodup,
        h.idleSub, h.mapSub, ?_, h.capBound, h.queueOrIdle, h.closingQueue,
        h.closingMap, h.timersMap, h.timersNodup, h.widBound, ?_, ?_, ?_, ?_, ?_,
        h.tidQueue, h.tidMap, h.tidLog, h.account⟩ ?_
      · -- partNe
        intro hc x hx2 _
        exact h.part hc x hx2
      · -- flagBound
        intro x hx2
        rcases hx2 with hx2 | hx2
        · exact h.flagBound x (Or.inl (mem_removeW.mp hx2).1)
        · exact h.flagBound x (Or.inr (mem_removeW.mp hx2).1)
      · -- flagGoneNe
        intro x _ hx2
        refine h.flagGone x ?_
        rcases hx2 with hx2 | hx2
        · exact Or.inl (mem_removeW.mp hx2).1
        · exact Or.inr (mem_removeW.mp hx2).1
      · -- wNone
        rw [h.closingMap hcl]
        rfl
      · -- wFlag
        exact Or.inl (mem_addW.mpr (Or.inr rfl))
      · -- removedAcc
        intro x hxid hxn
        by_cases hxw : x = w
        · subst hxw
          exact Or.inl (mem_addW.mpr (Or.inr rfl))
        · rcases h.removedAcc x hxid hxn with hacc | hacc | hacc
          · exact Or.inl (mem_addW.mpr (Or.inl hacc))
          · exact Or.inr (Or.inl (mem_removeW.mpr ⟨hacc, hxw⟩))
          · exact Or.inr (Or.inr (mem_removeW.mpr ⟨hacc, hxw⟩))
      · -- wMem (vacuous: closing)
        intro hcf
        rw [hcl] at hcf
        cases hcf
    · have hc : s.isClosing = false := by
        simpa [ne_eq, Bool.not_eq_true] using hcl
      have hwmem : w ∈ s.workers := by
        by_contra hnm
        rcases h.removedAcc w hwid hnm with hacc | hacc | hacc
        · exact hx hacc
        · exact ht hacc
        · exact he hacc
      cases hlw : lookupW s.workerTaskMap w with
      | none =>
        rw [onExit_live_none hc ht he hcode hlw]
        refine inv_replaceWorker ⟨h.numEq, h.workersNodup, h.idleNodup, h.keysNodup,
          h.idleSub, h.mapSub, ?_, h.capBound, h.queueOrIdle, h.closingQueue,
          h.closingMap, h.timersMap, h.timersNodup, h.widBound, ?_, ?_, hlw, ?_, ?_,
          h.tidQueue, h.tidMap, h.tidLog, h.account⟩ (fun _ => hwmem)
        · -- partNe
          intro hc2 x hx2 _
          exact h.part hc x hx2
        · -- flagBound
          intro x hx2
          rcases hx2 with hx2 | hx2
          · exact h.flagBound x (Or.inl (mem_removeW.mp hx2).1)
          · exact h.flagBound x (Or.inr (mem_removeW.mp hx2).1)
        · -- flagGoneNe
          intro x _ hx2
          refine h.flagGone x ?_
          rcases hx2 with hx2 | hx2
          · exact Or.inl (mem_removeW.mp hx2).1
          · exact Or.inr (mem_removeW.mp hx2).1
        · -- wFlag
          exact Or.inl (mem_addW.mpr (Or.inr rfl))
        · -- removedAcc
          intro x hxid hxn
          by_cases hxw : x = w
          · subst hxw
            exact Or.inl (mem_addW.mpr (Or.inr rfl))
          · rcases h.removedAcc x hxid hxn with hacc | hacc | hacc
            · exact Or.inl (mem_addW.mpr (Or.inl hacc))
            · exact Or.inr (Or.inl (mem_removeW.mpr ⟨hacc, hxw⟩))
            · exact Or.inr (Or.inr (mem_removeW.mpr ⟨hacc, hxw⟩))
      | some tid =>
        rw [onExit_live_some hc ht he hcode hlw]
        refine inv_replaceWorker ⟨h.numEq, h.workersNodup, h.idleNodup,
          (keys_eraseKey_sublist w _).nodup h.keysNodup, h.idleSub, ?_, ?_,
          h.capBound, h.queueOrIdle, ?_, ?_, ?_,
          (timers_filter_sublist _ _).nodup h.timersNodup, h.widBound, ?_, ?_,
          lookupW_eraseKey_self h.keysNodup, ?_, ?_, h.tidQueue, ?_, ?_, ?_⟩
          (fun _ => hwmem)
        · -- mapSub
          intro p hp
          exact h.mapSub p (mem_of_mem_eraseKey hp)
        · -- partNe
          intro hc2 x hx2 hxw
          rw [lookupW_eraseKey_ne hxw]
          exact h.part hc x hx2
        · -- closingQueue
          intro hcl2
          rw [hc] at hcl2
          cases hcl2
        · -- closingMap
          intro hcl2
          rw [hc] at hcl2
          cases hcl2
        · -- timersMap
          intro p hp
          rw [List.mem_filter] at hp
          obtain ⟨hp, hpw⟩ := hp
          simp only [ne_eq, decide_eq_true_eq] at hpw
          rw [lookupW_eraseKey_ne hpw]
          exact h.timersMap p hp
        · -- flagBound
          intro x hx2
          rcases hx2 with hx2 | hx2
          · exact h.flagBound x (Or.inl (mem_removeW.mp hx2).1)
          · exact h.flagBound x (Or.inr (mem_removeW.mp hx2).1)
        · -- flagGoneNe
          intro x hxw hx2
          have hfg : x ∈ s.timedOutWorkers ∨ x ∈ s.erroredWorkers := by
            rcases hx2 with hx2 | hx2
            · exact Or.inl (mem_removeW.mp hx2).1
            · exact Or.inr (mem_removeW.mp hx2).1
          obtain ⟨h1, h2⟩ := h.flagGone x hfg
          refine ⟨h1, ?_⟩
          rw [lookupW_eraseKey_ne hxw]
          exact h2
        · -- wFlag
          exact Or.inl (mem_addW.mpr (Or.inr rfl))
        · -- removedAcc
          intro x hxid hxn
          by_cases hxw : x = w
          · subst hxw
            exact Or.inl (mem_addW.mpr (Or.inr rfl))
          · rcases h.removedAcc x hxid hxn with hacc | hacc | hacc
            · exact Or.inl (mem_addW.mpr (Or.inl hacc))
            · exact Or.inr (Or.inl (mem_removeW.mpr ⟨hacc, hxw⟩))
            · exact Or.inr (Or.inr (mem_removeW.mpr ⟨hacc, hxw⟩))
        · -- tidMap
          intro p hp
          exact h.tidMap p (mem_of_mem_eraseKey hp)
        · -- tidLog
          intro e he2
          rw [List.mem_append, List.mem_singleton] at he2
          rcases he2 with he2 | he2
          · exact h.tidLog e he2
          · subst he2
            exact h.tidMap (w, tid) (lookupW_mem hlw)
        · -- account
          intro tid2 htid2
          dsimp only at htid2 ⊢
          rw [countTid_app_single]
          have herase := countA_eraseKey hlw tid2
          have := h.account tid2 htid2
          omega

theorem inv_fireTimeout {cap : Nat} {s : PoolState} (h : Inv cap s)
    {w tid : Nat} (ht : (w, tid) ∈ s.pendingTimers) :
    Inv cap (fireTimeout w tid
      { s with pendingTimers := s.pendingTimers.erase (w, tid) }) := by
  have hlw : lookupW s.workerTaskMap w = some tid := h.timersMap (w, tid) ht
  have hwmem : w ∈ s.workers := h.mapSub (w, tid) (lookupW_mem hlw)
  have hc : s.isClosing = false := by
    by_contra hcl
    rw [Bool.not_eq_false] at hcl
    rw [h.closingMap hcl] at hlw
    cases hlw
  have htlistnd : s.pendingTimers.Nodup := h.timersNodup.of_map
  have hlwE : lookupW ({ s with pendingTimers := s.pendingTimers.erase (w, tid) }
      : PoolState).workerTaskMap w = some tid := hlw
  rw [fireTimeout_some tid hlwE]
  have hinv2 : Inv cap (replaceWorker w
      { s with
        pendingTimers := s.pendingTimers.erase (w, tid)
        workerTaskMap := eraseKey w s.workerTaskMap
        settleLog := s.settleLog ++ [(tid, Outcome.rejected Failure.timedOut)]
        timedOutWorkers := addW w s.timedOutWorkers
        terminated := addW w s.terminated }) := by
    refine inv_replaceWorker ⟨h.numEq, h.workersNodup, h.idleNodup,
      (keys_eraseKey_sublist w _).nodup h.keysNodup, h.idleSub, ?_, ?_,
      h.capBound, h.queueOrIdle, ?_, ?_, ?_,
      ((s.pendingTimers.erase_sublist (w, tid)).map Prod.fst).nodup h.timersNodup,
      h.widBound, ?_, ?_, lookupW_eraseKey_self h.keysNodup, ?_, ?_,
      h.tidQueue, ?_, ?_, ?_⟩ (fun _ => hwmem)
    · -- mapSub
      intro p hp
      exact h.mapSub p (mem_of_mem_eraseKey hp)
    · -- partNe
      intro hc2 x hx2 hxw
      rw [lookupW_eraseKey_ne hxw]
      exact h.part hc x hx2
    · -- closingQueue
      intro hcl2
      rw [hc] at hcl2
      cases hcl2
    · -- closingMap
      intro hcl2
      rw [hc] at hcl2
      cases hcl2
    · -- timersMap
      intro p hp
      rw [htlistnd.mem_erase_iff] at hp
      obtain ⟨hpn, hp⟩ := hp
      have hpw : p.1 ≠ w := by
        intro hcontra
        have := h.timersMap p hp
        rw [hcontra, hlw] at this
        have hp2 : p.2 = tid := (Option.some.inj this).symm
        apply hpn
        obtain ⟨p1, p2⟩ := p
        simp only at hcontra hp2
        rw [hcontra, hp2]
      rw [lookupW_eraseKey_ne hpw]
      exact h.timersMap p hp
    · -- flagBound
      intro x hx2
      rcases hx2 with hx2 | hx2
      · rcases mem_addW.mp hx2 with hx2 | hx2
        · exact h.flagBound x (Or.inl hx2)
        · subst hx2
          exact h.widBound x hwmem
      · exact h.flagBound x (Or.inr hx2)
    · -- flagGoneNe
      intro x hxw hx2
      have hfg : x ∈ s.timedOutWorkers ∨ x ∈ s.erroredWorkers := by
        rcases hx2 with hx2 | hx2
        · rcases mem_addW.mp hx2 with hx2 | hx2
          · exact Or.inl hx2
          · exact absurd hx2 hxw
        · exact Or.inr hx2
      obtain ⟨h1, h2⟩ := h.flagGone x hfg
      refine ⟨h1, ?_⟩
      rw [lookupW_eraseKey_ne hxw]
      exact h2
    · -- wFlag
      exact Or.inr (Or.inl (mem_addW.mpr (Or.inr rfl)))
    · -- removedAcc
      intro x hxid hxn
      rcases h.removedAcc x hxid hxn with hacc | hacc | hacc
      · exact Or.inl hacc
      · exact Or.inr (Or.inl (mem_addW.mpr (Or.inl hacc)))
      · exact Or.inr (Or.inr hacc)
    · -- tidMap
      intro p hp
      exact h.tidMap p (mem_of_mem_eraseKey hp)
    · -- tidLog
      intro e he2
      rw [List.mem_append, List.mem_singleton] at he2
      rcases he2 with he2 | he2
      · exact h.tidLog e he2
      · subst he2
        exact h.tidMap (w, tid) (lookupW_mem hlw)
    · -- account
      intro tid2 htid2
      dsimp only at htid2 ⊢
      rw [countTid_app_single]
      have herase := countA_eraseKey hlw tid2
      have := h.account tid2 htid2
      omega
  exact (dispatch_of_stuck (Or.inr hinv2.queueOrIdle)).symm ▸ hinv2

theorem inv_close {cap : Nat} {s : PoolState} (h : Inv cap s) :
    Inv cap (close s) := by
  have htimers : s.pendingTimers.filter
      (fun p => lookupW s.workerTaskMap p.1 = none) = [] := by
    rw [List.filter_eq_nil_iff]
    intro p hp
    simp only [decide_eq_true_eq]
    rw [h.timersMap p hp]
    simp
  unfold close
  dsimp only
  refine ⟨⟨h.numEq, h.workersNodup, h.idleNodup, by simp, ?_, ?_, ?_, h.capBound,
    ?_, ?_, ?_, ?_, h.widBound, h.flagBound, ?_, h.removedAcc, ?_, ?_, ?_, ?_⟩,
    Or.inl rfl⟩
  · -- idleSub
    exact h.idleSub
  · -- mapSub
    intro p hp
    cases hp
  · -- part (vacuous: the state is closing)
    intro hcf
    cases hcf
  · -- closingQueue
    intro _
    rfl
  · -- closingMap
    intro _
    rfl
  · -- timersMap
    rw [htimers]
    intro p hp
    cases hp
  · -- timersNodup
    rw [htimers]
    simp
  · -- flagGone
    intro x hx
    exact ⟨(h.flagGone x hx).1, rfl⟩
  · -- tidQueue
    intro it hit
    cases hit
  · -- tidMap
    intro p hp
    cases hp
  · -- tidLog
    intro e he
    rw [List.append_assoc, List.mem_append] at he
    rcases he with he | he
    · exact h.tidLog e he
    · rw [List.mem_append] at he
      rcases he with he | he
      · obtain ⟨it, hit, heq⟩ := List.mem_map.mp he
        subst heq
        exact h.tidQueue it hit
      · obtain ⟨p, hp, heq⟩ := List.mem_map.mp he
        subst heq
        exact h.tidMap p hp
  · -- account
    intro tid htid
    dsimp only at htid ⊢
    have := h.account tid htid
    rw [List.append_assoc, countTid_append, countTid_append,
      countQ_map_fst, countA_map_snd]
    have hq0 : countQ tid ([] : List QueueItem) = 0 := rfl
    have ha0 : countA tid ([] : List (Nat × Nat)) = 0 := rfl
    omega

/-! ### The invariant holds in every reachable state -/

theorem inv_step {cap : Nat} {s s' : PoolState}
    (h : Inv cap s) (st : Step s s') : Inv cap s' := by
  cases st with
  | submit t s => exact inv_runTask h t
  | message w msg s hw => exact inv_onMessage h w msg
  | fault w s hw => exact inv_onError h hw
  | exited w code s hw hx hc => exact inv_onExit h hw hx hc
  | timerFired w tid s ht => exact inv_fireTimeout h ht
  | closeEv s => exact inv_close h

theorem inv_emptyPool (n : Nat) (ht : Bool) : Inv n (emptyPool n ht) := by
  unfold emptyPool
  refine ⟨⟨rfl, List.nodup_nil, List.nodup_nil, by simp, ?_, ?_, ?_, by simp,
    ?_, ?_, ?_, by simp, ?_, ?_, ?_, ?_, ?_, ?_, ?_, ?_⟩, Or.inl rfl⟩
  · intro x hx; cases hx
  · intro p hp; cases hp
  · intro _ x hx; cases hx
  · intro _; rfl
  · intro _; rfl
  · intro p hp; cases hp
  · intro x hx; cases hx
  · intro x hx; rcases hx with hx | hx <;> cases hx
  · intro x hx; rcases hx with hx | hx <;> cases hx
  · intro x hx hnx; cases hx
  · intro it hit; cases hit
  · intro p hp; cases hp
  · intro e he; cases he
  · intro tid htid
    dsimp only at htid
    omega

theorem spawn_isClosing (s : PoolState) :
    (spawnWorker s).isClosing = s.isClosing := by
  by_cases hcl : s.isClosing = true
  · rw [spawnWorker_closing hcl]
  · have hc : s.isClosing = false := by
      simpa [ne_eq, Bool.not_eq_true] using hcl
    rw [spawnWorker_open hc, (dispatch_frame _).2.1]

theorem spawn_workers_len {s : PoolState} (hc : s.isClosing = false) :
    (spawnWorker s).workers.length = s.workers.length + 1 := by
  rw [spawnWorker_open hc, (dispatch_frame _).1]
  simp

theorem inv_initWorkers (cap : Nat) :
    ∀ (k : Nat) (s : PoolState), Inv cap s → s.isClosing = false →
      s.workers.length + k ≤ cap → Inv cap (initWorkers k s) := by
  intro k
  induction k with
  | zero =>
    intro s h _ _
    exact h
  | succ n ih =>
    intro s h hc hcap
    have hspawn : Inv cap (spawnWorker s) :=
      inv_spawn h.toCore h.queueOrIdle (fun _ => by omega)
    unfold initWorkers
    refine ih (spawnWorker s) hspawn ?_ ?_
    · rw [spawn_isClosing, hc]
    · rw [spawn_workers_len hc]
      omega

theorem inv_mkPool (n : Nat) (ht : Bool) : Inv n (mkPool n ht) := by
  unfold mkPool
  refine inv_initWorkers n n (emptyPool n ht) (inv_emptyPool n ht) rfl ?_
  simp [emptyPool]

theorem reachable_inv {n : Nat} {ht : Bool} {s : PoolState}
    (h : Reachable n ht s) : Inv n s := by
  induction h with
  | init => exact inv_mkPool n ht
  | step _ st ih => exact inv_step ih st

/-! ### Frame and effect lemmas used by the claim theorems -/

theorem replaceWorker_frame (w : Nat) (s : PoolState) :
    (replaceWorker w s).settleLog = s.settleLog ∧
    (replaceWorker w s).erroredWorkers = s.erroredWorkers ∧
    (replaceWorker w s).timedOutWorkers = s.timedOutWorkers ∧
    (replaceWorker w s).isClosing = s.isClosing ∧
    (replaceWorker w s).spawnCount
      = s.spawnCount + (if s.isClosing = true then 0 else 1) ∧
    (replaceWorker w s).terminated = s.terminated ∧
    (replaceWorker w s).exitedWorkers = s.exitedWorkers ∧
    (replaceWorker w s).nextTaskId = s.nextTaskId := by
  unfold replaceWorker
  by_cases hcl : s.isClosing = true
  · rw [spawnWorker_closing (s := removeWorker w s) hcl]
    rw [if_pos hcl]
    exact ⟨rfl, rfl, rfl, rfl, rfl, rfl, rfl, rfl⟩
  · have hc : s.isClosing = false := by
      simpa [ne_eq, Bool.not_eq_true] using hcl
    rw [spawnWorker_open (s := removeWorker w s) hc]
    obtain ⟨_, h2, h3, h4, _, h6, h7, h8, h9, h10, h11, h12⟩ :=
      dispatch_frame ({ removeWorker w s with
        nextWorkerId := (removeWorker w s).nextWorkerId + 1
        spawnCount := (removeWorker w s).spawnCount + 1
        workers := (removeWorker w s).workers ++ [(removeWorker w s).nextWorkerId]
        idleWorkers := (removeWorker w s).idleWorkers ++ [(removeWorker w s).nextWorkerId] })
    rw [if_neg hcl]
    exact ⟨h3, h12, h11, h2, h4, h9, h10, h6⟩

theorem replaceWorker_workers (w : Nat) (s : PoolState) :
    (replaceWorker w s).workers =
      (if s.isClosing = true then s.workers.filter (fun x => x ≠ w)
       else s.workers.filter (fun x => x ≠ w) ++ [s.nextWorkerId]) := by
  unfold replaceWorker
  by_cases hcl : s.isClosing = true
  · rw [spawnWorker_closing (s := removeWorker w s) hcl, if_pos hcl]
    rfl
  · have hc : s.isClosing = false := by
      simpa [ne_eq, Bool.not_eq_true] using hcl
    rw [spawnWorker_open (s := removeWorker w s) hc, (dispatch_frame _).1, if_neg hcl]
    rfl

theorem not_mem_filter_ne (w : Nat) (l : List Nat) :
    w ∉ l.filter (fun x => x ≠ w) := by
  intro hmem
  rw [List.mem_filter] at hmem
  simpa using hmem.2

theorem onMessage_frame (w : Nat) (msg : WorkerMessage) (s : PoolState) :
    (onMessage w msg s).workers = s.workers ∧
    (onMessage w msg s).isClosing = s.isClosing ∧
    (onMessage w msg s).spawnCount = s.spawnCount := by
  cases hlw : lookupW s.workerTaskMap w with
  | none =>
    rw [onMessage_none msg hlw]
    exact ⟨rfl, rfl, rfl⟩
  | some tid =>
    rw [onMessage_some msg hlw]
    obtain ⟨h1, h2, _, h4, _⟩ := dispatch_frame _
    exact ⟨h1, h2, h4⟩

theorem onExit_closing_effect {s : PoolState} (hcl : s.isClosing = true)
    (w code : Nat) :
    (onExit w code s).workers = s.workers.filter (fun x => x ≠ w) ∧
    (onExit w code s).idleWorkers = s.idleWorkers.filter (fun x => x ≠ w) ∧
    (onExit w code s).taskQueue = s.taskQueue ∧
    (onExit w code s).isClosing = true ∧
    (onExit w code s).settleLog = s.settleLog ∧
    (onExit w code s).spawnCount = s.spawnCount := by
  unfold onExit
  dsimp only
  have hnot : ¬(code ≠ 0 ∧ s.isClosing = false ∧ ¬w ∈ s.timedOutWorkers ∧
      ¬w ∈ s.erroredWorkers) := by
    rintro ⟨-, hcf, -, -⟩
    rw [hcl] at hcf
    cases hcf
  rw [if_neg hnot]
  by_cases h2 : code ≠ 0 ∧ ¬w ∈ s.timedOutWorkers ∧ ¬w ∈ s.erroredWorkers
  · rw [if_pos h2]
    unfold replaceWorker
    rw [spawnWorker_closing (by exact hcl)]
    exact ⟨rfl, rfl, rfl, hcl, rfl, rfl⟩
  · rw [if_neg h2]
    exact ⟨rfl, rfl, rfl, hcl, rfl, rfl⟩

theorem filter_notmem_sub {l t : List Nat} (hsub : ∀ x, x ∈ l → x ∈ t) :
    l.filter (fun x => x ∉ t) = [] := by
  rw [List.filter_eq_nil_iff]
  intro a ha
  simp [hsub a ha]

theorem drainExits_closing (l : List Nat) :
    ∀ s : PoolState, s.isClosing = true →
      (drainExits l s).workers = s.workers.filter (fun x => x ∉ l) ∧
      (drainExits l s).idleWorkers = s.idleWorkers.filter (fun x => x ∉ l) ∧
      (drainExits l s).taskQueue = s.taskQueue ∧
      (drainExits l s).isClosing = true ∧
      (drainExits l s).settleLog = s.settleLog := by
  induction l with
  | nil =>
    intro s hcl
    refine ⟨?_, ?_, rfl, hcl, rfl⟩
    · exact (List.filter_eq_self.mpr (fun a _ => by simp)).symm
    · exact (List.filter_eq_self.mpr (fun a _ => by simp)).symm
  | cons a t ih =>
    intro s hcl
    have hstep := onExit_closing_effect hcl a 1
    have hdrain := ih (onExit a 1 s) hstep.2.2.2.1
    unfold drainExits at hdrain ⊢
    rw [List.foldl_cons]
    refine ⟨?_, ?_, ?_, hdrain.2.2.2.1, ?_⟩
    · rw [hdrain.1, hstep.1, List.filter_filter]
      apply List.filter_congr
      intro x _
      simp only [List.mem_cons, decide_not]
      by_cases hxa : x = a
      · subst hxa
        simp
      · by_cases hxt : x ∈ t <;> simp [hxa, hxt]
    · rw [hdrain.2.1, hstep.2.1, List.filter_filter]
      apply List.filter_congr
      intro x _
      simp only [List.mem_cons, decide_not]
      by_cases hxa : x = a
      · subst hxa
        simp
      · by_cases hxt : x ∈ t <;> simp [hxa, hxt]
    · rw [hdrain.2.2.1, hstep.2.2.1]
    · rw [hdrain.2.2.2.2, hstep.2.2.2.2.1]

theorem mem_foldl_addW (ws : List Nat) :
    ∀ (init : List Nat) (x : Nat), (x ∈ init ∨ x ∈ ws) →
      x ∈ ws.foldl (fun acc w => addW w acc) init := by
  induction ws with
  | nil =>
    intro init x hx
    rcases hx with hx | hx
    · exact hx
    · cases hx
  | cons a t ih =>
    intro init x hx
    rw [List.foldl_cons]
    refine ih (addW a init) x ?_
    rcases hx with hx | hx
    · exact Or.inl (mem_addW.mpr (Or.inl hx))
    · rcases List.mem_cons.mp hx with hx | hx
      · exact Or.inl (mem_addW.mpr (Or.inr hx))
      · exact Or.inr hx

theorem foldl_addW_idem (ws : List Nat) :
    ∀ (init : List Nat), (∀ x, x ∈ ws → x ∈ init) →
      ws.foldl (fun acc w => addW w acc) init = init := by
  induction ws with
  | nil =>
    intro init _
    rfl
  | cons a t ih =>
    intro init hsub
    rw [List.foldl_cons]
    have ha : addW a init = init := by
      unfold addW
      rw [if_pos (hsub a (List.mem_cons_self _ _))]
    rw [ha]
    exact ih init (fun x hx => hsub x (List.mem_cons_of_mem _ hx))

theorem dispatchLoopAux_stuck (n : Nat) {s : PoolState}
    (h : s.taskQueue = [] ∨ s.idleWorkers = []) : dispatchLoopAux n s = s := by
  cases n with
  | zero => rfl
  | succ m =>
    unfold dispatchLoopAux
    rcases h with h | h
    · rw [h]
    · rw [h]
      cases s.taskQueue <;> rfl

theorem dispatchLoopAux_succ (n : Nat) (s : PoolState) :
    dispatchLoopAux (n + 1) s =
      match s.taskQueue, s.idleWorkers with
      | it :: q, w :: ws => dispatchLoopAux n (assign s it q w ws)
      | _, _ => s := rfl

theorem dispatch_eq_dispatchLoop {s : PoolState}
    (hlen : s.taskQueue.length ≤ 1 ∨ s.idleWorkers.length ≤ 1) :
    dispatch s = dispatchLoop s := by
  unfold dispatchLoop
  by_cases hcl : s.isClosing = true
  · rw [if_pos hcl, dispatch_of_stuck (Or.inl hcl)]
  · have hc : s.isClosing = false := by
      simpa [ne_eq, Bool.not_eq_true] using hcl
    rw [if_neg hcl]
    cases hq : s.taskQueue with
    | nil =>
      rw [dispatch_of_stuck (Or.inr (Or.inl hq))]
      rfl
    | cons it q =>
      cases hi : s.idleWorkers with
      | nil =>
        rw [dispatch_of_stuck (Or.inr (Or.inr hi))]
        rw [show (it :: q).length = q.length + 1 from rfl, dispatchLoopAux_succ,
          hq, hi]
      | cons w ws =>
        rw [dispatch_cons hc hq hi]
        rw [show (it :: q).length = q.length + 1 from rfl, dispatchLoopAux_succ,
          hq, hi]
        dsimp only
        refine (dispatchLoopAux_stuck q.length ?_).symm
        rcases hlen with hlen2 | hlen2
        · rw [hq] at hlen2
          simp only [List.length_cons] at hlen2
          have hq0 : q = [] := List.eq_nil_of_length_eq_zero (by omega)
          exact Or.inl (by simp [assign, hq0])
        · rw [hi] at hlen2
          simp only [List.length_cons] at hlen2
          have hws : ws = [] := List.eq_nil_of_length_eq_zero (by omega)
          exact Or.inr (by simp [assign, hws])

/-! ### The claims -/

/-- Claim C1: for every task accepted by the pool (via `parse`, `stringify`
or `runTask`) and every sequence of delivered events, the task's result
handle is settled exactly once.  In every reachable state, each accepted
task id is accounted for exactly once across the settlement log, the queue
and the assignment map (so no path settles it twice, and a task leaves the
queue or the assignment map only by being settled); once the pool is
closing, every accepted task has been settled exactly once (`close` settles
all waiting and in-flight tasks). -/
theorem claim_C1_settled_once (n : Nat) (ht : Bool) (s : PoolState)
    (h : Reachable n ht s) :
    (∀ tid, tid < s.nextTaskId →
      countTid tid s.settleLog + countQ tid s.taskQueue
        + countA tid s.workerTaskMap = 1) ∧
    (s.isClosing = true → ∀ tid, tid < s.nextTaskId →
      countTid tid s.settleLog = 1) := by
  have inv := reachable_inv h
  refine ⟨inv.account, ?_⟩
  intro hcl tid htid
  have hacc := inv.account tid htid
  rw [inv.closingQueue hcl, inv.closingMap hcl] at hacc
  have hq0 : countQ tid ([] : List QueueItem) = 0 := rfl
  have ha0 : countA tid ([] : List (Nat × Nat)) = 0 := rfl
  omega

/-- Witness for C1 at a concrete run: one task submitted to a one-worker
pool, then the pool is closed; the single accepted task is settled exactly
once. -/
theorem claim_C1_settled_once_witness :
    (∀ tid, tid < (close (runTask ⟨TaskType.parse, "x"⟩ (mkPool 1 true))).nextTaskId →
      countTid tid (close (runTask ⟨TaskType.parse, "x"⟩ (mkPool 1 true))).settleLog
        + countQ tid (close (runTask ⟨TaskType.parse, "x"⟩ (mkPool 1 true))).taskQueue
        + countA tid (close (runTask ⟨TaskType.parse, "x"⟩ (mkPool 1 true))).workerTaskMap = 1) ∧
    ((close (runTask ⟨TaskType.parse, "x"⟩ (mkPool 1 true))).isClosing = true →
      ∀ tid, tid < (close (runTask ⟨TaskType.parse, "x"⟩ (mkPool 1 true))).nextTaskId →
        countTid tid (close (runTask ⟨TaskType.parse, "x"⟩ (mkPool 1 true))).settleLog = 1) :=
  claim_C1_settled_once 1 true _
    (Reachable.step (Reachable.step Reachable.init
      (Step.submit ⟨TaskType.parse, "x"⟩ _)) (Step.closeEv _))

/-- Claim C2: a single worker failure that raises both a fault (`error`)
event and an `exit` event on the same worker spawns exactly one replacement
(while the pool is open; none while closing), not two: the fault handler
replaces the worker, and the exit handler, recognizing the worker in
`erroredWorkers`, performs no second settlement and no second replacement,
only removing the worker from the registry. -/
theorem claim_C2_no_double_respawn (s : PoolState) (w code : Nat) :
    (onExit w code (onError w s)).spawnCount
      = s.spawnCount + (if s.isClosing = true then 0 else 1) ∧
    (onExit w code (onError w s)).settleLog = (onError w s).settleLog ∧
    w ∉ (onExit w code (onError w s)).workers := by
  have key : w ∈ (onError w s).erroredWorkers ∧
      (onError w s).spawnCount
        = s.spawnCount + (if s.isClosing = true then 0 else 1) := by
    cases hlw : lookupW s.workerTaskMap w with
    | none =>
      rw [onError_none hlw]
      constructor
      · rw [(replaceWorker_frame _ _).2.1]
        exact mem_addW.mpr (Or.inr rfl)
      · exact (replaceWorker_frame _ _).2.2.2.2.1
    | some tid =>
      rw [onError_some hlw]
      constructor
      · rw [(replaceWorker_frame _ _).2.1]
        exact mem_addW.mpr (Or.inr rfl)
      · exact (replaceWorker_frame _ _).2.2.2.2.1
  rw [onExit_attributed code (Or.inr key.1)]
  exact ⟨key.2, rfl, not_mem_filter_ne w _⟩

/-- Claim C7: every submission (`parse`, `stringify`, or any `runTask` call)
made while the pool is closing or after `close()` fails immediately with the
pool-closing error: the only state change is the rejection of the fresh
task's promise — the queue, the workers, the assignments and the message
sends are untouched. -/
theorem claim_C7_closing_rejects (s : PoolState) (hcl : s.isClosing = true) :
    (∀ t : WorkerTask, runTask t s =
      { s with
        nextTaskId := s.nextTaskId + 1
        settleLog := s.settleLog ++
          [(s.nextTaskId, Outcome.rejected Failure.poolClosing)] }) ∧
    (∀ p : String, parse p s = runTask ⟨TaskType.parse, p⟩ s) ∧
    (∀ d : String, stringify d s = runTask ⟨TaskType.stringify, d⟩ s) ∧
    (close s).isClosing = true := by
  refine ⟨fun t => runTask_closing t hcl, fun _ => rfl, fun _ => rfl, rfl⟩

/-- Witness for C7 at a freshly closed one-worker pool. -/
theorem claim_C7_closing_rejects_witness :
    (∀ t : WorkerTask, runTask t (close (mkPool 1 true)) =
      { close (mkPool 1 true) with
        nextTaskId := (close (mkPool 1 true)).nextTaskId + 1
        settleLog := (close (mkPool 1 true)).settleLog ++
          [((close (mkPool 1 true)).nextTaskId, Outcome.rejected Failure.poolClosing)] }) ∧
    (∀ p : String, parse p (close (mkPool 1 true))
      = runTask ⟨TaskType.parse, p⟩ (close (mkPool 1 true))) ∧
    (∀ d : String, stringify d (close (mkPool 1 true))
      = runTask ⟨TaskType.stringify, d⟩ (close (mkPool 1 true))) ∧
    (close (close (mkPool 1 true))).isClosing = true :=
  claim_C7_closing_rejects (close (mkPool 1 true)) rfl

/-- Claim C8: a response message with status `error` (an application-level
compute failure) from a busy worker rejects the assigned task's promise with
that error message, cancels the pending deadline timer, returns the worker
to the idle list and re-runs dispatch; the worker is not replaced (the
registry and the spawn count are untouched). -/
theorem claim_C8_compute_failure (s : PoolState) (w tid : Nat)
    (msg : WorkerMessage) (hlw : lookupW s.workerTaskMap w = some tid)
    (hstatus : msg.status = MsgStatus.error) :
    onMessage w msg s = dispatch
      { s with
        pendingTimers := s.pendingTimers.filter (fun p => p.1 ≠ w)
        settleLog := s.settleLog ++
          [(tid, Outcome.rejected (Failure.computeError msg.error))]
        workerTaskMap := eraseKey w s.workerTaskMap
        idleWorkers := s.idleWorkers ++ [w] } ∧
    (onMessage w msg s).settleLog = s.settleLog ++
      [(tid, Outcome.rejected (Failure.computeError msg.error))] ∧
    (onMessage w msg s).workers = s.workers ∧
    (onMessage w msg s).spawnCount = s.spawnCount := by
  have heq := onMessage_some msg hlw
  rw [hstatus] at heq
  refine ⟨heq, ?_, (onMessage_frame w msg s).1, (onMessage_frame w msg s).2.2⟩
  rw [heq, (dispatch_frame _).2.2.1]

/-- Witness for C8: the sole worker of a fresh pool reports a compute error
for its assigned task. -/
theorem claim_C8_compute_failure_witness :
    (onMessage 0 ⟨MsgStatus.error, "", "boom"⟩
        (runTask ⟨TaskType.parse, "x"⟩ (mkPool 1 true)) = dispatch
      { runTask ⟨TaskType.parse, "x"⟩ (mkPool 1 true) with
        pendingTimers := (runTask ⟨TaskType.parse, "x"⟩ (mkPool 1 true)).pendingTimers.filter
          (fun p => p.1 ≠ 0)
        settleLog := (runTask ⟨TaskType.parse, "x"⟩ (mkPool 1 true)).settleLog ++
          [(0, Outcome.rejected (Failure.computeError "boom"))]
        workerTaskMap := eraseKey 0 (runTask ⟨TaskType.parse, "x"⟩ (mkPool 1 true)).workerTaskMap
        idleWorkers := (runTask ⟨TaskType.parse, "x"⟩ (mkPool 1 true)).idleWorkers ++ [0] }) ∧
    (onMessage 0 ⟨MsgStatus.error, "", "boom"⟩
        (runTask ⟨TaskType.parse, "x"⟩ (mkPool 1 true))).settleLog
      = (runTask ⟨TaskType.parse, "x"⟩ (mkPool 1 true)).settleLog ++
        [(0, Outcome.rejected (Failure.computeError "boom"))] ∧
    (onMessage 0 ⟨MsgStatus.error, "", "boom"⟩
        (runTask ⟨TaskType.parse, "x"⟩ (mkPool 1 true))).workers
      = (runTask ⟨TaskType.parse, "x"⟩ (mkPool 1 true)).workers ∧
    (onMessage 0 ⟨MsgStatus.error, "", "boom"⟩
        (runTask ⟨TaskType.parse, "x"⟩ (mkPool 1 true))).spawnCount
      = (runTask ⟨TaskType.parse, "x"⟩ (mkPool 1 true)).spawnCount :=
  claim_C8_compute_failure _ 0 0 _ (by decide) rfl

/-- Claim C9: a message event from a worker with no entry in
`workerTaskMap` (a stale response from an already timed-out or replaced
worker) changes no pool state at all: the handler returns before touching
anything. -/
theorem claim_C9_stale_message (s : PoolState) (w : Nat) (msg : WorkerMessage)
    (hlw : lookupW s.workerTaskMap w = none) : onMessage w msg s = s :=
  onMessage_none msg hlw

/-- Witness for C9: a message from worker 5 (never assigned) of a fresh
pool leaves the state unchanged. -/
theorem claim_C9_stale_message_witness :
    onMessage 5 ⟨MsgStatus.ok, "d", ""⟩ (mkPool 2 true) = mkPool 2 true :=
  claim_C9_stale_message (mkPool 2 true) 5 ⟨MsgStatus.ok, "d", ""⟩ (by decide)

/-- Claim C3, amended: in every reachable state of a pool of capacity `n`,
`0 ≤ |idleWorkers| ≤ |workers| ≤ n` and
`|idleWorkers| + |workerTaskMap| ≤ |workers|`, with equality
(idle plus busy equals total) whenever the pool is not closing; the worker
count never exceeds `n`.  (The equality does not hold while closing: `close`
clears every assignment synchronously, while the assigned workers leave the
registry only when their termination's exit event arrives — see the
counterexample.) -/
theorem claim_C3_pool_bounds (n : Nat) (ht : Bool) (s : PoolState)
    (h : Reachable n ht s) :
    s.idleWorkers.length ≤ s.workers.length ∧
    s.workers.length ≤ n ∧
    s.idleWorkers.length + s.workerTaskMap.length ≤ s.workers.length ∧
    (s.isClosing = false →
      s.idleWorkers.length + s.workerTaskMap.length = s.workers.length) := by
  have inv := reachable_inv h
  refine ⟨inv.toCore.idleLe, inv.capBound, ?_, fun hc => inv.toCore.partLength hc⟩
  by_cases hc : s.isClosing = true
  · rw [inv.closingMap hc]
    have := inv.toCore.idleLe
    simpa using this
  · have hc2 : s.isClosing = false := by
      simpa [ne_eq, Bool.not_eq_true] using hc
    have := inv.toCore.partLength hc2
    omega

/-- Counterexample for C3 as stated: after one task is submitted to a
one-worker pool and `close()` runs, the pool is in a reachable, observable
state in which the sole worker is neither idle nor assigned
(`|idle| + |workerTaskMap| = 0` but `|workers| = 1`), so
`|idle| + |busy| = |workers|` fails at that instant. -/
theorem claim_C3_counterexample :
    Reachable 1 true (close (runTask ⟨TaskType.parse, "x"⟩ (mkPool 1 true))) ∧
    ¬((close (runTask ⟨TaskType.parse, "x"⟩ (mkPool 1 true))).idleWorkers.length
        + (close (runTask ⟨TaskType.parse, "x"⟩ (mkPool 1 true))).workerTaskMap.length
      = (close (runTask ⟨TaskType.parse, "x"⟩ (mkPool 1 true))).workers.length) :=
  ⟨Reachable.step (Reachable.step Reachable.init
      (Step.submit ⟨TaskType.parse, "x"⟩ _)) (Step.closeEv _),
    by decide⟩

/-- Witness for the amended C3 at a reachable busy state (one task assigned
to the sole worker): `0 + 1 = 1 ≤ 1`. -/
theorem claim_C3_pool_bounds_witness :
    (runTask ⟨TaskType.parse, "x"⟩ (mkPool 1 true)).idleWorkers.length
      ≤ (runTask ⟨TaskType.parse, "x"⟩ (mkPool 1 true)).workers.length ∧
    (runTask ⟨TaskType.parse, "x"⟩ (mkPool 1 true)).workers.length ≤ 1 ∧
    (runTask ⟨TaskType.parse, "x"⟩ (mkPool 1 true)).idleWorkers.length
        + (runTask ⟨TaskType.parse, "x"⟩ (mkPool 1 true)).workerTaskMap.length
      ≤ (runTask ⟨TaskType.parse, "x"⟩ (mkPool 1 true)).workers.length ∧
    ((runTask ⟨TaskType.parse, "x"⟩ (mkPool 1 true)).isClosing = false →
      (runTask ⟨TaskType.parse, "x"⟩ (mkPool 1 true)).idleWorkers.length
          + (runTask ⟨TaskType.parse, "x"⟩ (mkPool 1 true)).workerTaskMap.length
        = (runTask ⟨TaskType.parse, "x"⟩ (mkPool 1 true)).workers.length) :=
  claim_C3_pool_bounds 1 true _
    (Reachable.step Reachable.init (Step.submit ⟨TaskType.parse, "x"⟩ _))

/-- Claim C4: `close()` settles every waiting (queued) task and every
in-flight (assigned) task with the pool-closing failure, cancels all armed
deadline timers, records a `terminate()` call for every worker, and — after
the exit events of the terminated workers have been delivered, which is what
`close()` awaits before resolving — `stats()` reports
`workers = idle = queue = 0`. -/
theorem claim_C4_close (n : Nat) (ht : Bool) (s : PoolState)
    (h : Reachable n ht s) :
    (close s).taskQueue = [] ∧
    (close s).workerTaskMap = [] ∧
    (close s).pendingTimers = [] ∧
    (close s).isClosing = true ∧
    (close s).settleLog = s.settleLog
      ++ s.taskQueue.map (fun it => (it.taskId, Outcome.rejected Failure.poolClosing))
      ++ s.workerTaskMap.map (fun p => (p.2, Outcome.rejected Failure.poolClosing)) ∧
    (∀ w, w ∈ s.workers → w ∈ (close s).terminated) ∧
    stats (drainExits (close s).workers (close s)) = ⟨0, 0, 0⟩ := by
  have inv := reachable_inv h
  have htimers : (close s).pendingTimers = [] := by
    show s.pendingTimers.filter
      (fun p => lookupW s.workerTaskMap p.1 = none) = []
    rw [List.filter_eq_nil_iff]
    intro p hp
    simp only [decide_eq_true_eq]
    rw [inv.timersMap p hp]
    simp
  refine ⟨rfl, rfl, htimers, rfl, rfl, ?_, ?_⟩
  · intro w hw
    exact mem_foldl_addW s.workers s.terminated w (Or.inr hw)
  · have hdrain := drainExits_closing (close s).workers (close s) rfl
    unfold stats
    have hw : (drainExits (close s).workers (close s)).workers = [] := by
      rw [hdrain.1]
      exact filter_notmem_sub (fun x hx => hx)
    have hi : (drainExits (close s).workers (close s)).idleWorkers = [] := by
      rw [hdrain.2.1]
      exact filter_notmem_sub (fun x hx => inv.idleSub x hx)
    rw [hw, hi, hdrain.2.2.1]
    rfl

/-- Witness for C4 at a reachable busy one-worker pool. -/
theorem claim_C4_close_witness :
    (close (runTask ⟨TaskType.parse, "x"⟩ (mkPool 1 true))).taskQueue = [] ∧
    (close (runTask ⟨TaskType.parse, "x"⟩ (mkPool 1 true))).workerTaskMap = [] ∧
    (close (runTask ⟨TaskType.parse, "x"⟩ (mkPool 1 true))).pendingTimers = [] ∧
    (close (runTask ⟨TaskType.parse, "x"⟩ (mkPool 1 true))).isClosing = true ∧
    (close (runTask ⟨TaskType.parse, "x"⟩ (mkPool 1 true))).settleLog
      = (runTask ⟨TaskType.parse, "x"⟩ (mkPool 1 true)).settleLog
      ++ (runTask ⟨TaskType.parse, "x"⟩ (mkPool 1 true)).taskQueue.map
          (fun it => (it.taskId, Outcome.rejected Failure.poolClosing))
      ++ (runTask ⟨TaskType.parse, "x"⟩ (mkPool 1 true)).workerTaskMap.map
          (fun p => (p.2, Outcome.rejected Failure.poolClosing)) ∧
    (∀ w, w ∈ (runTask ⟨TaskType.parse, "x"⟩ (mkPool 1 true)).workers →
      w ∈ (close (runTask ⟨TaskType.parse, "x"⟩ (mkPool 1 true))).terminated) ∧
    stats (drainExits (close (runTask ⟨TaskType.parse, "x"⟩ (mkPool 1 true))).workers
      (close (runTask ⟨TaskType.parse, "x"⟩ (mkPool 1 true)))) = ⟨0, 0, 0⟩ :=
  claim_C4_close 1 true _
    (Reachable.step Reachable.init (Step.submit ⟨TaskType.parse, "x"⟩ _))

/-- Claim C5: `dispatch` assigns queued tasks to idle workers.  At every
state at which the program invokes it (at such states at most one of the
queue/idle lists has grown beyond the dispatch-exhausted equilibrium, so one
of them has length at most 1), the source's single-assignment `dispatch`
coincides with the specification's while-loop (`dispatchLoop`); it is a
no-op while closing; it pops the front (oldest) task and the front idle
worker, records the assignment, arms the deadline timer exactly when a task
timeout is configured, and sends exactly one message per dispatched task;
after it returns no state has both a queued task and an idle worker, and
indeed every reachable (observable) state of the pool has an empty queue or
no idle worker. -/
theorem claim_C5_dispatch (s : PoolState)
    (hlen : s.taskQueue.length ≤ 1 ∨ s.idleWorkers.length ≤ 1) :
    dispatch s = dispatchLoop s ∧
    (s.isClosing = true → dispatch s = s) ∧
    (s.isClosing = false →
      ((dispatch s).taskQueue = [] ∨ (dispatch s).idleWorkers = [])) ∧
    (∀ it q w ws, s.isClosing = false → s.taskQueue = it :: q →
      s.idleWorkers = w :: ws →
      (dispatch s).taskQueue = q ∧
      (dispatch s).idleWorkers = ws ∧
      (dispatch s).workerTaskMap = setKey w it.taskId s.workerTaskMap ∧
      (dispatch s).sends = s.sends ++ [(w, it.taskId)] ∧
      (dispatch s).pendingTimers =
        (if s.hasTaskTimeout then s.pendingTimers ++ [(w, it.taskId)]
         else s.pendingTimers)) ∧
    (∀ (n : Nat) (ht2 : Bool) (s2 : PoolState), Reachable n ht2 s2 →
      (s2.taskQueue = [] ∨ s2.idleWorkers = [])) := by
  refine ⟨dispatch_eq_dispatchLoop hlen,
    fun hcl => dispatch_of_stuck (Or.inl hcl), ?_, ?_, ?_⟩
  · intro hc
    exact qOrI_dispatch hlen (fun hcl => absurd hcl (by simp [hc]))
  · intro it q w ws hc hq hi
    rw [dispatch_cons hc hq hi]
    exact ⟨rfl, rfl, rfl, rfl, rfl⟩
  · intro n ht2 s2 h2
    exact (reachable_inv h2).queueOrIdle

/-- Witness for C5 at a fresh two-worker pool with an empty queue. -/
theorem claim_C5_dispatch_witness :
    dispatch (mkPool 2 true) = dispatchLoop (mkPool 2 true) ∧
    ((mkPool 2 true).isClosing = true → dispatch (mkPool 2 true) = mkPool 2 true) ∧
    ((mkPool 2 true).isClosing = false →
      ((dispatch (mkPool 2 true)).taskQueue = [] ∨
        (dispatch (mkPool 2 true)).idleWorkers = [])) ∧
    (∀ it q w ws, (mkPool 2 true).isClosing = false →
      (mkPool 2 true).taskQueue = it :: q →
      (mkPool 2 true).idleWorkers = w :: ws →
      (dispatch (mkPool 2 true)).taskQueue = q ∧
      (dispatch (mkPool 2 true)).idleWorkers = ws ∧
      (dispatch (mkPool 2 true)).workerTaskMap
        = setKey w it.taskId (mkPool 2 true).workerTaskMap ∧
      (dispatch (mkPool 2 true)).sends = (mkPool 2 true).sends ++ [(w, it.taskId)] ∧
      (dispatch (mkPool 2 true)).pendingTimers =
        (if (mkPool 2 true).hasTaskTimeout
         then (mkPool 2 true).pendingTimers ++ [(w, it.taskId)]
         else (mkPool 2 true).pendingTimers)) ∧
    (∀ (n : Nat) (ht2 : Bool) (s2 : PoolState), Reachable n ht2 s2 →
      (s2.taskQueue = [] ∨ s2.idleWorkers = [])) :=
  claim_C5_dispatch (mkPool 2 true) (by decide)

/-- Claim C6: when a deadline timer fires for a worker with no assignment
(entry in `workerTaskMap`), the callback is ignored with no state change;
otherwise the assigned task's promise is rejected with the timeout failure,
the worker is marked timed-out, forcibly terminated, removed and replaced by
a fresh worker (only removed while closing), and dispatch is re-run; the
subsequent exit event of the terminated worker causes no second settlement
and no second replacement. -/
theorem claim_C6_timeout (s : PoolState) (w tid : Nat) :
    (lookupW s.workerTaskMap w = none → fireTimeout w tid s = s) ∧
    (lookupW s.workerTaskMap w ≠ none →
      fireTimeout w tid s = dispatch (replaceWorker w
        { s with
          workerTaskMap := eraseKey w s.workerTaskMap
          settleLog := s.settleLog ++ [(tid, Outcome.rejected Failure.timedOut)]
          timedOutWorkers := addW w s.timedOutWorkers
          terminated := addW w s.terminated }) ∧
      (fireTimeout w tid s).settleLog
        = s.settleLog ++ [(tid, Outcome.rejected Failure.timedOut)] ∧
      w ∈ (fireTimeout w tid s).timedOutWorkers ∧
      w ∈ (fireTimeout w tid s).terminated ∧
      (fireTimeout w tid s).workers =
        (if s.isClosing = true then s.workers.filter (fun x => x ≠ w)
         else s.workers.filter (fun x => x ≠ w) ++ [s.nextWorkerId]) ∧
      (fireTimeout w tid s).spawnCount
        = s.spawnCount + (if s.isClosing = true then 0 else 1) ∧
      (∀ code, (onExit w code (fireTimeout w tid s)).settleLog
          = (fireTimeout w tid s).settleLog ∧
        (onExit w code (fireTimeout w tid s)).spawnCount
          = (fireTimeout w tid s).spawnCount)) := by
  constructor
  · intro hlw
    exact fireTimeout_guard tid hlw
  · intro hne
    cases hlw : lookupW s.workerTaskMap w with
    | none => exact absurd hlw hne
    | some tid2 =>
      have heq := fireTimeout_some tid hlw
      have hlog : (fireTimeout w tid s).settleLog
          = s.settleLog ++ [(tid, Outcome.rejected Failure.timedOut)] := by
        rw [heq, (dispatch_frame _).2.2.1, (replaceWorker_frame _ _).1]
      have htd : w ∈ (fireTimeout w tid s).timedOutWorkers := by
        rw [heq, (dispatch_frame _).2.2.2.2.2.2.2.2.2.2.1,
          (replaceWorker_frame _ _).2.2.1]
        exact mem_addW.mpr (Or.inr rfl)
      refine ⟨heq, hlog, htd, ?_, ?_, ?_, ?_⟩
      · -- terminated
        rw [heq, (dispatch_frame _).2.2.2.2.2.2.2.2.1,
          (replaceWorker_frame _ _).2.2.2.2.2.1]
        exact mem_addW.mpr (Or.inr rfl)
      · -- workers
        rw [heq, (dispatch_frame _).1, replaceWorker_workers]
      · -- spawnCount
        rw [heq, (dispatch_frame _).2.2.2.1, (replaceWorker_frame _ _).2.2.2.2.1]
      · -- the worker's own exit afterwards: no settle, no respawn
        intro code
        rw [onExit_attributed code (Or.inl htd)]
        exact ⟨rfl, rfl⟩

/-- Witness for C6: the deadline of the busy sole worker of a fresh pool
fires; the inner hypothesis (the worker is assigned) is discharged by
computation. -/
theorem claim_C6_timeout_witness :
    fireTimeout 0 0 (runTask ⟨TaskType.parse, "x"⟩ (mkPool 1 true))
      = dispatch (replaceWorker 0
        { runTask ⟨TaskType.parse, "x"⟩ (mkPool 1 true) with
          workerTaskMap := eraseKey 0
            (runTask ⟨TaskType.parse, "x"⟩ (mkPool 1 true)).workerTaskMap
          settleLog := (runTask ⟨TaskType.parse, "x"⟩ (mkPool 1 true)).settleLog
            ++ [(0, Outcome.rejected Failure.timedOut)]
          timedOutWorkers := addW 0
            (runTask ⟨TaskType.parse, "x"⟩ (mkPool 1 true)).timedOutWorkers
          terminated := addW 0
            (runTask ⟨TaskType.parse, "x"⟩ (mkPool 1 true)).terminated }) ∧
    (fireTimeout 0 0 (runTask ⟨TaskType.parse, "x"⟩ (mkPool 1 true))).settleLog
      = (runTask ⟨TaskType.parse, "x"⟩ (mkPool 1 true)).settleLog
        ++ [(0, Outcome.rejected Failure.timedOut)] ∧
    0 ∈ (fireTimeout 0 0 (runTask ⟨TaskType.parse, "x"⟩ (mkPool 1 true))).timedOutWorkers ∧
    0 ∈ (fireTimeout 0 0 (runTask ⟨TaskType.parse, "x"⟩ (mkPool 1 true))).terminated ∧
    (fireTimeout 0 0 (runTask ⟨TaskType.parse, "x"⟩ (mkPool 1 true))).workers =
      (if (runTask ⟨TaskType.parse, "x"⟩ (mkPool 1 true)).isClosing = true
       then (runTask ⟨TaskType.parse, "x"⟩ (mkPool 1 true)).workers.filter (fun x => x ≠ 0)
       else (runTask ⟨TaskType.parse, "x"⟩ (mkPool 1 true)).workers.filter (fun x => x ≠ 0)
         ++ [(runTask ⟨TaskType.parse, "x"⟩ (mkPool 1 true)).nextWorkerId]) ∧
    (fireTimeout 0 0 (runTask ⟨TaskType.parse, "x"⟩ (mkPool 1 true))).spawnCount
      = (runTask ⟨TaskType.parse, "x"⟩ (mkPool 1 true)).spawnCount
        + (if (runTask ⟨TaskType.parse, "x"⟩ (mkPool 1 true)).isClosing = true then 0 else 1) ∧
    (∀ code, (onExit 0 code (fireTimeout 0 0
          (runTask ⟨TaskType.parse, "x"⟩ (mkPool 1 true)))).settleLog
        = (fireTimeout 0 0 (runTask ⟨TaskType.parse, "x"⟩ (mkPool 1 true))).settleLog ∧
      (onExit 0 code (fireTimeout 0 0
          (runTask ⟨TaskType.parse, "x"⟩ (mkPool 1 true)))).spawnCount
        = (fireTimeout 0 0 (runTask ⟨TaskType.parse, "x"⟩ (mkPool 1 true))).spawnCount) :=
  (claim_C6_timeout (runTask ⟨TaskType.parse, "x"⟩ (mkPool 1 true)) 0 0).2 (by decide)

/-- Support for C10: `close` applied to an already-drained closing state
(empty queue, no assignments, all workers already recorded as terminated) is
the identity. -/
theorem close_of_drained {x : PoolState} (hq : x.taskQueue = [])
    (hm : x.workerTaskMap = []) (hcl : x.isClosing = true)
    (hterm : ∀ w, w ∈ x.workers → w ∈ x.terminated) : close x = x := by
  obtain ⟨nt, htt, wks, idl, q, m, cl, td, er, nwi, nti, pt, sl, sd, sc, tm, ex⟩ := x
  simp only at hq hm hcl hterm
  subst hq
  subst hm
  subst hcl
  have hfilter : pt.filter
      (fun p => lookupW ([] : List (Nat × Nat)) p.1 = none) = pt := by
    rw [List.filter_eq_self]
    intro p _
    simp [lookupW]
  unfold close
  dsimp only
  rw [hfilter, foldl_addW_idem wks tm hterm]
  simp

/-- Claim C10: once `close()` has run, the closing flag is never cleared by
any event, no new worker is ever spawned (`spawnWorker` returns immediately
while closing, including during replacements triggered by late exit events),
the worker count is non-increasing from that point on, and a second
`close()` leaves the already-closed state unchanged. -/
theorem claim_C10_closing_forever :
    (∀ s : PoolState, s.isClosing = true → spawnWorker s = s) ∧
    (∀ s s' : PoolState, Step s s' → s.isClosing = true →
      s'.isClosing = true ∧ s'.workers.length ≤ s.workers.length) ∧
    (∀ s : PoolState, close (close s) = close s) := by
  refine ⟨fun s hcl => spawnWorker_closing hcl, ?_, ?_⟩
  · intro s s' st hcl
    cases st with
    | submit t s =>
      rw [runTask_closing t hcl]
      exact ⟨hcl, le_refl _⟩
    | message w msg s hw =>
      obtain ⟨h1, h2, _⟩ := onMessage_frame w msg s
      rw [h1, h2]
      exact ⟨hcl, le_refl _⟩
    | fault w s hw =>
      cases hlw : lookupW s.workerTaskMap w with
      | none =>
        rw [onError_none hlw]
        constructor
        · rw [(replaceWorker_frame _ _).2.2.2.1]
          exact hcl
        · rw [replaceWorker_workers, if_pos (by exact hcl)]
          exact length_filter_ne_le _ _
      | some tid =>
        rw [onError_some hlw]
        constructor
        · rw [(replaceWorker_frame _ _).2.2.2.1]
          exact hcl
        · rw [replaceWorker_workers, if_pos (by exact hcl)]
          exact length_filter_ne_le _ _
    | exited w code s hw hx hc =>
      obtain ⟨h1, _, _, h4, _, _⟩ := onExit_closing_effect hcl w code
      rw [h1, h4]
      exact ⟨rfl, length_filter_ne_le _ _⟩
    | timerFired w tid s ht =>
      cases hlw : lookupW s.workerTaskMap w with
      | none =>
        rw [fireTimeout_guard tid (by exact hlw)]
        exact ⟨hcl, le_refl _⟩
      | some tid2 =>
        rw [fireTimeout_some tid
          (show lookupW ({ s with pendingTimers := s.pendingTimers.erase (w, tid) }
            : PoolState).workerTaskMap w = some tid2 from hlw)]
        constructor
        · rw [(dispatch_frame _).2.1, (replaceWorker_frame _ _).2.2.2.1]
          exact hcl
        · rw [(dispatch_frame _).1, replaceWorker_workers, if_pos (by exact hcl)]
          exact length_filter_ne_le _ _
    | closeEv s =>
      exact ⟨rfl, le_refl _⟩
  · intro s
    refine close_of_drained rfl rfl rfl ?_
    intro w hw
    exact mem_foldl_addW s.workers s.terminated w (Or.inr hw)

/-- Witness for C10 at a freshly closed one-worker pool; the step is the
second `close` event. -/
theorem claim_C10_closing_forever_witness :
    spawnWorker (close (mkPool 1 true)) = close (mkPool 1 true) ∧
    ((close (close (mkPool 1 true))).isClosing = true ∧
      (close (close (mkPool 1 true))).workers.length
        ≤ (close (mkPool 1 true)).workers.length) ∧
    close (close (mkPool 1 true)) = close (mkPool 1 true) :=
  ⟨claim_C10_closing_forever.1 (close (mkPool 1 true)) rfl,
    claim_C10_closing_forever.2.1 (close (mkPool 1 true)) _
      (Step.closeEv _) rfl,
    claim_C10_closing_forever.2.2 (mkPool 1 true)⟩

end AsyncJson
